import Mathlib

/-!
Verification of the `addfootnote` image-captioning tool (`src/main.py`).

Python strings are modelled as `List Char` (ASCII fragment; Python's Unicode
digit/whitespace classes are modelled by their ASCII parts, which covers every
input the CLI grammar accepts).  Python `int` is `Int`/`Nat`; Python `float`
arithmetic is modelled exactly as IEEE-754 binary64 round-to-nearest-even over
`Rat` (normal range; the model does not represent overflow to infinity or
subnormals, which the dimension values in scope never reach).  Functions that
can raise are `Except String`-valued.  `PIL` collaborators (image surface,
text measurement via `draw.multiline_textbbox`, `ImageFont`, named-color
lookup in `ImageColor.getrgb`) are injected as function parameters, and the
`textwrap` standard-library collaborator (`textwrap.fill` with default
settings) is embedded directly from its CPython implementation.
-/

set_option autoImplicit false

deriving instance DecidableEq for Except

abbrev Str := List Char

/-- Coerce a Lean string literal into the `List Char` model. -/
def str (s : String) : Str := s.toList

/-- Python whitespace class `\t\n\x0b\x0c\r ` (string.whitespace). -/
def pyIsSpace (c : Char) : Bool :=
  c = ' ' ∨ c = '\t' ∨ c = '\n' ∨ c = '\x0b' ∨ c = '\x0c' ∨ c = '\r'

/-- ASCII decimal digit, the ASCII part of Python's `str.isdigit` / regex `\d`. -/
def pyIsDigit (c : Char) : Bool := '0' ≤ c ∧ c ≤ '9'

/-- Python `str.isdigit()`: nonempty and all digits. -/
def pyIsDigitStr (s : Str) : Bool := s ≠ [] ∧ s.all pyIsDigit

/-- Numeric value of a digit string, Python `int(s)` for a digit-only `s`. -/
def digitsVal (s : Str) : ℕ :=
  s.foldl (fun n c => 10 * n + (c.toNat - '0'.toNat)) 0

/-- Python `str.strip()` (whitespace from both ends). -/
def pyStrip (s : Str) : Str :=
  ((s.dropWhile pyIsSpace).reverse.dropWhile pyIsSpace).reverse

/-- Python `str.split("\n")`: split on each newline, keeping empty pieces. -/
def splitNL : Str → List Str
  | [] => [[]]
  | c :: cs =>
    if c = '\n' then [] :: splitNL cs
    else
      match splitNL cs with
      | h :: t => (c :: h) :: t
      | [] => [[c]]

/-- Python `"\n".join(blocks)`. -/
def joinNL : List Str → Str
  | [] => []
  | [b] => b
  | b :: bs => b ++ '\n' :: joinNL bs

/-- Python `text.replace("\\n", "\n")`: left-to-right single-pass replacement
of the two-character sequence backslash-`n` by a real newline. -/
def replaceEsc : Str → Str
  | '\\' :: 'n' :: rest => '\n' :: replaceEsc rest
  | c :: rest => c :: replaceEsc rest
  | [] => []

/-- Python `str.split()` with no argument: split on whitespace runs,
discarding empty pieces. -/
def pySplitWS : Str → List Str
  | [] => []
  | c :: cs =>
    if pyIsSpace c then pySplitWS cs
    else
      match pySplitWS cs with
      | [] => [[c]]
      | w :: ws =>
        match cs with
        | [] => [[c]]
        | d :: _ => if pyIsSpace d then [c] :: w :: ws else (c :: w) :: ws

/-! ## IEEE-754 binary64 model

Nonnegative Python floats are modelled exactly as dyadic rationals
`⟨m, e⟩` denoting `m * 2^(e-52)` with `m` a 53-bit significand (or `0`).
Float division and multiplication compute the exact rational result and
round it to the nearest such value (round-to-nearest, ties to even),
which is exactly IEEE-754 binary64 behaviour in the normal range; the
dimension values in scope never reach overflow or subnormals.  All
arithmetic is structural `Nat`/`Int` arithmetic so that the kernel can
evaluate it. -/

/-- Number of binary digits of `n` (`0` for `0`), fuel-based. -/
def bitLenGo : ℕ → ℕ → ℕ
  | 0, _ => 0
  | fuel + 1, n => if n = 0 then 0 else bitLenGo fuel (n / 2) + 1

/-- Number of binary digits of `n` (`0` for `0`). -/
def bitLen (n : ℕ) : ℕ := bitLenGo n n

/-- Round the fraction `n / d` (with `d > 0`) to the nearest natural
number, ties to even. -/
def rndHalfEvenFrac (n d : ℕ) : ℕ :=
  let q := n / d
  let r := n % d
  if 2 * r < d then q
  else if d < 2 * r then q + 1
  else if q % 2 = 0 then q else q + 1

/-- Is `n / d ≥ 2^k` (for `n, d > 0`)? -/
def fracGePow (n d : ℕ) (k : ℤ) : Bool :=
  if 0 ≤ k then d * 2 ^ k.toNat ≤ n else d ≤ n * 2 ^ (-k).toNat

/-- Binary exponent of `n / d` (for `n, d > 0`): the `e` with
`2^e ≤ n/d < 2^(e+1)`. -/
def fracExp (n d : ℕ) : ℤ :=
  let e0 : ℤ := (bitLen n : ℤ) - (bitLen d : ℤ)
  if fracGePow n d e0 then e0 else e0 - 1

/-- A nonnegative binary64 value: `m * 2^(e-52)`. -/
structure Dyadic where
  m : ℕ
  e : ℤ
  deriving DecidableEq

/-- Round the nonnegative fraction `n / d` (with `d > 0`) to the nearest
binary64 value (53-bit significand, round-to-nearest-even). -/
def roundDFrac (n d : ℕ) : Dyadic :=
  if n = 0 then ⟨0, 0⟩
  else
    let e := fracExp n d
    let k := 52 - e
    let m :=
      if 0 ≤ k then rndHalfEvenFrac (n * 2 ^ k.toNat) d
      else rndHalfEvenFrac n (d * 2 ^ (-k).toNat)
    ⟨m, e⟩

/-- Python `a / b` on nonnegative ints: exact quotient rounded to binary64. -/
def pyDiv (a b : ℕ) : Dyadic := roundDFrac a b

/-- Python `n * x` for a nonnegative int `n` and float `x`: exact product
rounded to binary64. -/
def pyMulNat (n : ℕ) (x : Dyadic) : Dyadic :=
  if 0 ≤ x.e - 52 then roundDFrac (n * x.m * 2 ^ (x.e - 52).toNat) 1
  else roundDFrac (n * x.m) (2 ^ (52 - x.e).toNat)

/-- Python `int(x)` on a nonnegative float: truncation toward zero. -/
def pyTrunc (x : Dyadic) : ℕ :=
  if 0 ≤ x.e - 52 then x.m * 2 ^ (x.e - 52).toNat
  else x.m / 2 ^ (52 - x.e).toNat

/-- The percentage computation of `parse_padding` / `parse_pixels_or_percent`:
Python `int(base * (percent / 100))`, i.e. float division, float
multiplication, then truncation. -/
def pyPercentCalc (base percent : ℕ) : ℤ :=
  (pyTrunc (pyMulNat base (pyDiv percent 100)) : ℤ)

/-! ## Dimension resolver (`parse_padding`, `parse_pixels_or_percent`) -/

/-- `re.fullmatch(r"%?(\d+)%?", s)`: on success returns the digit group.
The pattern is deterministic: an optional leading percent sign, one or more
digits, an optional trailing percent sign, end of string. -/
def regexPD (s : Str) : Option Str :=
  let s1 := if s.head? = some '%' then s.tail else s
  let ds := s1.takeWhile pyIsDigit
  let rest := s1.dropWhile pyIsDigit
  if ds ≠ [] ∧ (rest = [] ∨ rest = ['%']) then some ds else none

/-- `parse_pixels_or_percent(value, base)` from `src/main.py`. -/
def parse_pixels_or_percent (value : Str) (base : ℕ) : Except String ℤ :=
  let v := pyStrip value
  match regexPD v, decide ('%' ∈ v) with
  | some g, true => .ok (pyPercentCalc base (digitsVal g))
  | _, _ =>
    if pyIsDigitStr v then .ok (digitsVal v)
    else .error ("Invalid value: " ++ String.mk v)

/-- `parse_padding(padding_str, image_height)` from `src/main.py`
(same logic as `parse_pixels_or_percent`, different error message). -/
def parse_padding (padding_str : Str) (image_height : ℕ) : Except String ℤ :=
  let v := pyStrip padding_str
  match regexPD v, decide ('%' ∈ v) with
  | some g, true => .ok (pyPercentCalc image_height (digitsVal g))
  | _, _ =>
    if pyIsDigitStr v then .ok (digitsVal v)
    else .error ("Invalid padding value: " ++ String.mk v)

/-- Modelled from the spec: the dimension grammar `^%?\d+%?$` exactly as
written in the spec (no whitespace allowance), for comparison with the
source's strip-then-match behaviour. -/
def dimGrammar (s : Str) : Bool :=
  let s1 := if s.head? = some '%' then s.tail else s
  let ds := s1.takeWhile pyIsDigit
  let rest := s1.dropWhile pyIsDigit
  ds ≠ [] ∧ (rest = [] ∨ rest = ['%'])

/-! ## `textwrap` standard-library model

`textwrap.fill(text, width)` with all-default settings, embedded from the
CPython implementation: `_munge_whitespace` (tab expansion, whitespace
translation), `_split` (the `wordsep_re` tokenizer, ASCII character
classes), `_handle_long_word`, and `_wrap_chunks` (which raises
`ValueError` for width <= 0).  Loops are fuel-based so the kernel can
evaluate them; fuel sufficiency is proved below. -/

/-- ASCII part of regex `\w`: letters, digits, underscore. -/
def isWordChar (c : Char) : Bool := c.isAlpha ∨ pyIsDigit c ∨ c = '_'

/-- ASCII part of `[^\d\W]` (the `letter` class of `wordsep_re`):
letters and underscore. -/
def isLtr (c : Char) : Bool := c.isAlpha ∨ c = '_'

/-- The `word_punct` class of `wordsep_re`: `[\w!"'&.,?]`. -/
def isWordPunct (c : Char) : Bool :=
  isWordChar c ∨ c = '!' ∨ c = '"' ∨ c = '\'' ∨ c = '&' ∨ c = '.' ∨ c = ',' ∨ c = '?'

/-- Python `str.expandtabs(8)`: replace each tab by spaces up to the next
multiple of 8, tracking the column (reset on newline and carriage return). -/
def expandTabsGo : Str → ℕ → Str
  | [], _ => []
  | c :: cs, col =>
    if c = '\t' then
      let nsp := 8 - col % 8
      List.replicate nsp ' ' ++ expandTabsGo cs (col + nsp)
    else if c = '\n' ∨ c = '\r' then c :: expandTabsGo cs 0
    else c :: expandTabsGo cs (col + 1)

/-- `TextWrapper._munge_whitespace`: expand tabs, then translate every
whitespace character to a space. -/
def mungeWS (s : Str) : Str :=
  (expandTabsGo s 0).map (fun c => if pyIsSpace c then ' ' else c)

/-- Python `s.strip() == ""`: all characters whitespace (or empty). -/
def isBlank (s : Str) : Bool := s.all pyIsSpace

/-- Does `opt` hold a letter? (lookbehind helper). -/
def optLtr (o : Option Char) : Bool := match o with | some c => isLtr c | none => false

/-- Does `opt` hold a dash? (lookbehind helper). -/
def optDash (o : Option Char) : Bool := match o with | some c => c = '-' | none => false

/-- Lookbehind of the hyphenated-word branch of `wordsep_re`, applied to
the reversed context before the consumed hyphen:
`(?<=letter letter -) | (?<=letter - letter -)`. -/
def hyphLB (ctx : Str) : Bool :=
  (optLtr ctx.head? ∧ optLtr (ctx.get? 1)) ∨
  (optLtr ctx.head? ∧ optDash (ctx.get? 1) ∧ optLtr (ctx.get? 2))

/-- Lookahead of the hyphenated-word branch: `(?= letter -? letter)`. -/
def hyphLA (rs : Str) : Bool :=
  match rs with
  | a :: b :: c :: _ => isLtr a ∧ (isLtr b ∨ (b = '-' ∧ isLtr c))
  | [a, b] => isLtr a ∧ isLtr b
  | _ => false

/-- Does `opt` hold a word character? (lookahead helper). -/
def optWord (o : Option Char) : Bool := match o with | some c => isWordChar c | none => false

/-- Is the next text a run of two or more dashes followed by a word
character? (the em-dash lookahead `(?=-{2,}\w)`). -/
def emDashAhead (x : Str) : Bool :=
  let run := x.takeWhile (fun c => c = '-')
  2 ≤ run.length ∧ optWord (x.drop run.length).head?

/-- Does the reversed context start with a `word_punct` character? -/
def wpHead (ctx : Str) : Bool :=
  match ctx.head? with | some c => isWordPunct c | none => false

/-- The lazy `nowhitespace+?` loop of `wordsep_re`'s word branch:
`accRev` is the reversed word consumed so far (nonempty), `prevRev` the
reversed text before the match.  At each extension the three
sub-alternatives are tried in regex order: hyphenated-word break,
end-of-word (whitespace or end of string), em-dash boundary. -/
def nextChunkC (prevRev : Str) : Str → Str → Str × Str
  | accRev, [] => (accRev.reverse, [])
  | accRev, r :: rs =>
    let ctx := accRev ++ prevRev
    if r = '-' ∧ hyphLB ctx ∧ hyphLA rs then (accRev.reverse ++ ['-'], rs)
    else if pyIsSpace r then (accRev.reverse, r :: rs)
    else if wpHead ctx ∧ emDashAhead (r :: rs) then (accRev.reverse, r :: rs)
    else nextChunkC prevRev (r :: accRev) rs

/-- One token of `wordsep_re` at the current position (`x` nonempty),
with `prevRev` the reversed text before it: a whitespace run, an em-dash
run, or a word via `nextChunkC`.  Returns the token and the rest. -/
def nextChunk (prevRev : Str) (x : Str) : Str × Str :=
  match x with
  | [] => ([], [])
  | c :: cs =>
    if pyIsSpace c then (x.takeWhile pyIsSpace, x.dropWhile pyIsSpace)
    else if wpHead prevRev ∧ emDashAhead x then
      (x.takeWhile (fun ch => ch = '-'), x.dropWhile (fun ch => ch = '-'))
    else nextChunkC prevRev [c] cs

/-- Repeated tokenisation (`TextWrapper._split`), fuel-based. -/
def splitChunksGo : ℕ → Str → Str → List Str
  | 0, _, _ => []
  | _ + 1, _, [] => []
  | fuel + 1, prevRev, c :: cs =>
    (nextChunk prevRev (c :: cs)).1 ::
      splitChunksGo fuel ((nextChunk prevRev (c :: cs)).1.reverse ++ prevRev)
        (nextChunk prevRev (c :: cs)).2

/-- `TextWrapper._split(text)`: the chunk list (never contains `[]`). -/
def splitChunks (x : Str) : List Str := splitChunksGo x.length [] x

/-- Highest index of `'-'` in `s`, Python `s.rfind('-')`. -/
def rfindDash (s : Str) : Option ℕ :=
  match s.reverse.findIdx? (fun c => c = '-') with
  | some j => some (s.length - 1 - j)
  | none => none

/-- The break index chosen by `_handle_long_word` (with
`break_long_words=True` and `break_on_hyphens=True`): the space left on
the current line, or just after the last usable hyphen before it when
one exists with non-hyphen characters before it. -/
def handleEnd (width curLen : ℕ) (c : Str) : ℕ :=
  let spaceLeft := if width < 1 then 1 else width - curLen
  if spaceLeft < c.length then
    match rfindDash (c.take spaceLeft) with
    | some h =>
      if 0 < h ∧ (c.take h).any (fun ch => ch ≠ '-') then h + 1 else spaceLeft
    | none => spaceLeft
  else spaceLeft

/-- `TextWrapper._handle_long_word`: split the head chunk at
`handleEnd`, returning the piece appended to the current line and the
remainder of the chunk. -/
def handleLW (width curLen : ℕ) (c : Str) : Str × Str :=
  (c.take (handleEnd width curLen c), c.drop (handleEnd width curLen c))

/-- The inner greedy loop of `_wrap_chunks`: move chunks onto the current
line while the accumulated length stays within `width`.  Returns the
taken chunks, the rest, and the new length. -/
def takeFits (width : ℕ) : List Str → ℕ → List Str × List Str × ℕ
  | [], n => ([], [], n)
  | c :: cs, n =>
    if n + c.length ≤ width then
      (c :: (takeFits width cs (n + c.length)).1,
       (takeFits width cs (n + c.length)).2.1,
       (takeFits width cs (n + c.length)).2.2)
    else ([], c :: cs, n)

/-- The line-filling part of one `_wrap_chunks` iteration on the chunk
list `l`: greedy take via `takeFits`, then long-word handling via
`handleLW` when the next chunk is wider than the whole line.  Returns
the current-line pieces and the remaining chunks. -/
def lineBreak (width : ℕ) (l : List Str) : List Str × List Str :=
  let tf := takeFits width l 0
  match tf.2.1 with
  | [] => (tf.1, [])
  | d :: ds =>
    if width < d.length then
      (tf.1 ++ [(handleLW width tf.2.2 d).1], (handleLW width tf.2.2 d).2 :: ds)
    else (tf.1, d :: ds)

/-- One iteration of the outer `_wrap_chunks` loop on a nonempty chunk
list `c :: cs`: drop a leading whitespace chunk (except on the first
line), fill the line via `lineBreak`, drop a trailing whitespace piece,
and emit the line if nonempty.  Returns the remaining chunks and the
updated (reversed) line accumulator. -/
def wrapStep (width : ℕ) (lines : List Str) (c : Str) (cs : List Str) :
    List Str × List Str :=
  let chunks := if lines ≠ [] ∧ isBlank c then cs else c :: cs
  let lb := lineBreak width chunks
  let cur2 := lb.1
  let rest2 := lb.2
  let cur3 :=
    match cur2.getLast? with
    | some lastc => if isBlank lastc then cur2.dropLast else cur2
    | none => cur2
  let lines2 := if cur3 = [] then lines else cur3.flatten :: lines
  (rest2, lines2)

/-- The outer loop of `_wrap_chunks` (indents empty, `max_lines=None`,
`drop_whitespace=True`), fuel-based: one `wrapStep` per iteration. -/
def wrapChunksGo (width : ℕ) : ℕ → List Str → List Str → Except String (List Str)
  | 0, _, _ => .error "textwrap fuel exhausted"
  | _ + 1, [], lines => .ok lines.reverse
  | fuel + 1, c :: cs, lines =>
    wrapChunksGo width fuel (wrapStep width lines c cs).1 (wrapStep width lines c cs).2

/-- Fuel sufficient for `wrapChunksGo`: total characters plus chunk count
plus one (each iteration consumes a chunk or shortens one). -/
def chunkFuel (chunks : List Str) : ℕ :=
  (chunks.map List.length).sum + chunks.length + 1

/-- Total characters plus chunk count: the loop variant of `_wrap_chunks`. -/
def chunkMeasure (l : List Str) : ℕ := (l.map List.length).sum + l.length

/-- A character that is whitespace only if it is a plain space (the
shape of every character produced by `mungeWS`). -/
def spaceOnly (ch : Char) : Prop := pyIsSpace ch = true → ch = ' '

/-- Invariant of the chunk lists flowing through `_wrap_chunks`:
nonempty chunks of munged characters. -/
def GoodChunks (l : List Str) : Prop := ∀ c ∈ l, c ≠ [] ∧ ∀ ch ∈ c, spaceOnly ch

/-- Invariant of every emitted line: nonempty, within the width, munged
characters. -/
def GoodLine (width : ℕ) (L : Str) : Prop :=
  L ≠ [] ∧ L.length ≤ width ∧ ∀ ch ∈ L, spaceOnly ch

/-- Does the string contain the two-character sequence backslash-`n`? -/
def hasEsc : Str → Bool
  | '\\' :: 'n' :: _ => true
  | _ :: rest => hasEsc rest
  | [] => false

/-- `TextWrapper.wrap(text)` with default settings: the list of lines.
Raises `ValueError` for non-positive width (here `width = 0`). -/
def textwrapWrap (text : Str) (width : ℕ) : Except String (List Str) :=
  if width = 0 then .error "invalid width 0 (must be > 0)"
  else
    let chunks := splitChunks (mungeWS text)
    wrapChunksGo width (chunkFuel chunks) chunks []

/-- `textwrap.fill(text, width)`: the wrapped lines joined by newlines. -/
def pyFill (text : Str) (width : ℕ) : Except String Str :=
  (textwrapWrap text width).map joinNL

/-! ## `wrap_for_multiline` and `wrap_text` from `src/main.py` -/

/-- The per-paragraph block list of `wrap_for_multiline(draw, text, font,
max_width)`: normalize escaped newlines, split into paragraphs, preserve
blank paragraphs as empty blocks, wrap the others with `textwrap.fill`
at `max_width // 5` characters.  (The `draw` and `font` arguments of the
source function are unused there and omitted.) -/
def wrapBlocks (text : Str) (max_width : ℕ) : Except String (List Str) :=
  let t := replaceEsc text
  let approx := max_width / 5
  (splitNL t).mapM (fun p => if isBlank p then pure [] else pyFill p approx)

/-- `wrap_for_multiline` from `src/main.py`: the blocks joined by newlines. -/
def wrap_for_multiline (text : Str) (max_width : ℕ) : Except String Str :=
  (wrapBlocks text max_width).map joinNL

/-- The accumulator loop of `wrap_text` from `src/main.py`: `lines` holds
the emitted lines, `current` the line under construction. -/
def wrapTextGo (measure : Str → ℕ) (mw : ℕ) : List Str → List Str → Str → List Str
  | [], lines, current => if current ≠ [] then lines ++ [current] else lines
  | w :: ws, lines, current =>
    let test := if current = [] then w else current ++ ' ' :: w
    if measure test ≤ mw then wrapTextGo measure mw ws lines test
    else wrapTextGo measure mw ws (if current ≠ [] then lines ++ [current] else lines) w

/-- The line list produced by `wrap_text(draw, text, font, max_width)`
from `src/main.py`, with the measurement collaborator
`draw.multiline_textbbox` width abstracted as `measure`. -/
def wrapLines (measure : Str → ℕ) (text : Str) (mw : ℕ) : List Str :=
  wrapTextGo measure mw (pySplitWS text) [] []

/-- `wrap_text` from `src/main.py`: the greedy pixel-measured wrapper
(dead code in the source — `process_image` never calls it). -/
def wrap_text (measure : Str → ℕ) (text : Str) (mw : ℕ) : Str :=
  joinNL (wrapLines measure text mw)

/-! ## Color parsing, font loading, layout, and the pipeline -/

/-- Split on a separator character, keeping empty pieces. -/
def splitOnC (sep : Char) : Str → List Str
  | [] => [[]]
  | c :: cs =>
    if c = sep then [] :: splitOnC sep cs
    else
      match splitOnC sep cs with
      | h :: t => (c :: h) :: t
      | [] => [[c]]

/-- One component of the `\d{1,3},\d{1,3},\d{1,3}` color form. -/
def okRGBPart (p : Str) : Bool := 1 ≤ p.length ∧ p.length ≤ 3 ∧ p.all pyIsDigit

/-- Does `c` match `re.fullmatch(r"\d{1,3},\d{1,3},\d{1,3}", c)`?  On
success, the three digit groups. -/
def rgbParts (c : Str) : Option (Str × Str × Str) :=
  match splitOnC ',' c with
  | [r, g, b] => if okRGBPart r ∧ okRGBPart g ∧ okRGBPart b then some (r, g, b) else none
  | _ => none

/-- ASCII hexadecimal digit. -/
def isHexDigit (c : Char) : Bool :=
  pyIsDigit c ∨ ('a' ≤ c ∧ c ≤ 'f') ∨ ('A' ≤ c ∧ c ≤ 'F')

/-- Does `c` match `re.fullmatch(r"[0-9a-fA-F]{6}|[0-9a-fA-F]{3}", c)`? -/
def isHexColor (c : Str) : Bool :=
  (c.length = 6 ∨ c.length = 3) ∧ c.all isHexDigit

/-- `parse_color(color_str)` from `src/main.py`, with the
`ImageColor.getrgb` collaborator injected as `getrgb` (`none` models its
`ValueError`). -/
def parse_color (getrgb : Str → Option (ℕ × ℕ × ℕ)) (color_str : Str) :
    Except String (ℕ × ℕ × ℕ) :=
  let c := pyStrip color_str
  match rgbParts c with
  | some (r, g, b) =>
    if digitsVal r ≤ 255 ∧ digitsVal g ≤ 255 ∧ digitsVal b ≤ 255 then
      .ok (digitsVal r, digitsVal g, digitsVal b)
    else .error "RGB values must be between 0 and 255"
  | none =>
    let c2 := if isHexColor c then '#' :: c else c
    match getrgb c2 with
    | some rgb => .ok rgb
    | none => .error ("Invalid color value: " ++ String.mk c2)

/-- A PIL font handle: a loaded truetype font or the built-in default. -/
inductive PILFont where
  | truetype (path : Str) (size : ℕ)
  | defaultFont
  deriving DecidableEq

/-- Does the path already end in `.ttf`? -/
def endsWithTtf (p : Str) : Bool := (str ".ttf").isSuffixOf p

/-- `load_font(font_path, font_size)` from `src/main.py`: append `.ttf`
when missing, try to open the font (`fontExists` injects whether
`ImageFont.truetype` succeeds or raises `IOError`), and fall back to
`ImageFont.load_default()` on failure. -/
def load_font (fontExists : Str → ℕ → Bool) (font_path : Str) (font_size : ℕ) : PILFont :=
  let fp := if endsWithTtf font_path then font_path else font_path ++ str ".ttf"
  if fp ≠ [] then
    if fontExists fp font_size then .truetype fp font_size else .defaultFont
  else
    if fontExists (str "arial.ttf") font_size then .truetype (str "arial.ttf") font_size
    else .defaultFont

/-- The vertical-alignment branch of `process_image` (`src/main.py`
lines 159-165); `//` is Python floor division, `Int.fdiv`. -/
def layoutY (valign : Str) (height bottom_padding text_height : ℤ) : ℤ :=
  if valign = str "top" then height + 10
  else if valign = str "bottom" then height + bottom_padding - text_height - 10
  else height + Int.fdiv (bottom_padding - text_height) 2

/-- The horizontal-alignment branch of `process_image` (`src/main.py`
lines 167-173). -/
def layoutX (align : Str) (width text_width : ℤ) : ℤ :=
  if align = str "left" then 20
  else if align = str "right" then width - text_width - 20
  else Int.fdiv (width - text_width) 2

/-- Externally visible effects of one invocation. -/
inductive Effect where
  | opened (path : Str)
  | saved (path : Str)
  | printed (msg : Str)
  deriving DecidableEq

/-- The injected collaborators of `process_image`: the opened image's
size, `ImageColor.getrgb`, `ImageFont.truetype` success, and
`draw.multiline_textbbox` (wrapped text and alignment to a bounding
box; the font and `spacing=4` of the call site are fixed). -/
structure Collab where
  imgW : ℕ
  imgH : ℕ
  getrgb : Str → Option (ℕ × ℕ × ℕ)
  fontExists : Str → ℕ → Bool
  bbox : Str → Str → ℤ × ℤ × ℤ × ℤ

/-- `process_image` from `src/main.py` as an effect trace: open the
input, validate padding and both colors, load the font, resolve the wrap
width, wrap the caption, measure it, compute the draw origin, then save
and print the confirmation.  A `ValueError` anywhere stops the run with
only the `opened` effect emitted. -/
def process_image (C : Collab) (input output comment padding bg_color text_color
    font_path : Str) (font_size : ℕ) (align valign wrap_width : Str) :
    List Effect × Except String Unit :=
  let tr := [Effect.opened input]
  match parse_padding padding C.imgH with
  | .error e => (tr, .error e)
  | .ok bottom_padding =>
    match parse_color C.getrgb bg_color with
    | .error e => (tr, .error e)
    | .ok _bg =>
      match parse_color C.getrgb text_color with
      | .error e => (tr, .error e)
      | .ok _tc =>
        let _font := load_font C.fontExists font_path font_size
        match parse_pixels_or_percent wrap_width C.imgW with
        | .error e => (tr, .error e)
        | .ok mtw =>
          match wrap_for_multiline comment mtw.toNat with
          | .error e => (tr, .error e)
          | .ok wrapped =>
            let bb := C.bbox wrapped align
            let text_width := bb.2.2.1 - bb.1
            let text_height := bb.2.2.2 - bb.2.1
            let _y := layoutY valign (C.imgH : ℤ) bottom_padding text_height
            let _x := layoutX align (C.imgW : ℤ) text_width
            (tr ++ [Effect.saved output,
                    Effect.printed (str "[+] Saved output image to: " ++ output)],
             .ok ())

/-- `main()` from `src/main.py`: run `process_image`; a `ValueError` is
caught and turned into `parser.error(str(e))`, which reports the message
and exits with status 2; success exits 0. -/
def mainRun (C : Collab) (input output comment padding bg_color text_color
    font_path : Str) (font_size : ℕ) (align valign wrap_width : Str) :
    ℕ × List Effect :=
  match process_image C input output comment padding bg_color text_color
      font_path font_size align valign wrap_width with
  | (tr, .ok _) => (0, tr)
  | (tr, .error e) => (2, tr ++ [Effect.printed (str "error: " ++ e.toList)])

/-! ## Theorems -/

theorem layoutY_top (h bp th : ℤ) : layoutY (str "top") h bp th = h + 10 := by
  unfold layoutY; rw [if_pos rfl]

theorem layoutY_bottom (h bp th : ℤ) :
    layoutY (str "bottom") h bp th = h + bp - th - 10 := by
  unfold layoutY; rw [if_neg (by decide), if_pos rfl]

theorem layoutY_middle (h bp th : ℤ) :
    layoutY (str "middle") h bp th = h + Int.fdiv (bp - th) 2 := by
  unfold layoutY; rw [if_neg (by decide), if_neg (by decide)]

theorem layoutX_left (w tw : ℤ) : layoutX (str "left") w tw = 20 := by
  unfold layoutX; rw [if_pos rfl]

theorem layoutX_right (w tw : ℤ) : layoutX (str "right") w tw = w - tw - 20 := by
  unfold layoutX; rw [if_neg (by decide), if_pos rfl]

theorem layoutX_center (w tw : ℤ) :
    layoutX (str "center") w tw = Int.fdiv (w - tw) 2 := by
  unfold layoutX; rw [if_neg (by decide), if_neg (by decide)]

/-- Claim C5: the layout origin follows the alignment formulas exactly:
`top` gives `y = bandTopY + 10`, `bottom` gives
`y = bandTopY + bandHeightPx - textHeight - 10`, `middle` gives
`y = bandTopY + (bandHeightPx - textHeight) // 2`; `left` gives `x = 20`,
`right` gives `x = imageWidthPx - textWidth - 20`, `center` gives
`x = (imageWidthPx - textWidth) // 2`; in particular band height 200 and
text height 40 with `middle` give `y = bandTopY + 80`, and image width
1000 with text width 300 give `x = 680` for `right` and `x = 350` for
`center`. -/
theorem claim_C5_alignment_origin
    (bandTopY bandHeightPx textHeight textWidth imageWidthPx : ℤ) :
    layoutY (str "top") bandTopY bandHeightPx textHeight = bandTopY + 10 ∧
    layoutY (str "bottom") bandTopY bandHeightPx textHeight =
      bandTopY + bandHeightPx - textHeight - 10 ∧
    layoutY (str "middle") bandTopY bandHeightPx textHeight =
      bandTopY + Int.fdiv (bandHeightPx - textHeight) 2 ∧
    layoutX (str "left") imageWidthPx textWidth = 20 ∧
    layoutX (str "right") imageWidthPx textWidth = imageWidthPx - textWidth - 20 ∧
    layoutX (str "center") imageWidthPx textWidth = Int.fdiv (imageWidthPx - textWidth) 2 ∧
    layoutY (str "middle") bandTopY 200 40 = bandTopY + 80 ∧
    layoutX (str "right") 1000 300 = 680 ∧
    layoutX (str "center") 1000 300 = 350 := by
  refine ⟨layoutY_top .., layoutY_bottom .., layoutY_middle .., layoutX_left ..,
    layoutX_right .., layoutX_center .., ?_, ?_, ?_⟩
  · rw [layoutY_middle, show Int.fdiv (200 - 40) 2 = 80 by decide]
  · rw [layoutX_right]; norm_num
  · rw [layoutX_center, show Int.fdiv (1000 - 300) 2 = 350 by decide]

theorem ttf_path_ne_nil (p : Str) :
    (if endsWithTtf p then p else p ++ str ".ttf") ≠ [] := by
  by_cases h : endsWithTtf p
  · rw [if_pos h]
    intro hnil
    subst hnil
    exact absurd h (by decide)
  · rw [if_neg h]
    intro hnil
    have h0 : (p ++ str ".ttf").length = 0 := by rw [hnil]; rfl
    have h4 : (str ".ttf").length = 4 := rfl
    rw [List.length_append, h4] at h0
    omega

/-- Claim C9: font loading never surfaces a fatal error: when opening the
(`.ttf`-normalized) requested font fails, `load_font` returns the
built-in default font; when it succeeds, the loaded truetype font is
returned — in both cases a font handle is produced and processing
continues. -/
theorem claim_C9_font_fallback (fontExists : Str → ℕ → Bool) (font_path : Str)
    (font_size : ℕ) :
    (fontExists (if endsWithTtf font_path then font_path else font_path ++ str ".ttf")
        font_size = false →
      load_font fontExists font_path font_size = .defaultFont) ∧
    (fontExists (if endsWithTtf font_path then font_path else font_path ++ str ".ttf")
        font_size = true →
      load_font fontExists font_path font_size =
        .truetype (if endsWithTtf font_path then font_path else font_path ++ str ".ttf")
          font_size) := by
  unfold load_font
  rw [if_pos (ttf_path_ne_nil font_path)]
  constructor
  · intro h; rw [h]; rfl
  · intro h; rw [h]; rfl

theorem claim_C9_font_fallback_witness :
    load_font (fun _ _ => false) (str "arial") 16 = .defaultFont :=
  (claim_C9_font_fallback (fun _ _ => false) (str "arial") 16).1 rfl

/-- Claim C2 is wrong about the code: the resolver computes
`int(base * (percent / 100))` in IEEE-754 double arithmetic, not exact
integer `floor(base * percent / 100)`.  At base 100 and percentage
string "29%" the code yields 28 (since `100 * (29/100)` rounds to
`28.999999999999996`), while the claimed floor is 29. -/
theorem claim_C2_float_not_floor :
    parse_pixels_or_percent (str "29%") 100 = .ok 28 ∧
    parse_padding (str "29%") 100 = .ok 28 ∧
    (100 * 29) / 100 = (29 : ℤ) ∧
    parse_pixels_or_percent (str "101%") 10 = .ok 10 := by decide

theorem dropWhile_eq_nil_of_all {l : Str} (h : ∀ c ∈ l, pyIsSpace c) :
    l.dropWhile pyIsSpace = [] := by
  induction l with
  | nil => rfl
  | cons c cs ih =>
    rw [List.dropWhile_cons, if_pos (h c (by simp))]
    exact ih fun d hd => h d (by simp [hd])

theorem pyStrip_append_space (y : Str) :
    pyStrip (y ++ [' ']) = pyStrip y := by
  unfold pyStrip
  by_cases hall : ∀ c ∈ y, pyIsSpace c
  · rw [dropWhile_eq_nil_of_all hall,
      dropWhile_eq_nil_of_all (l := y ++ [' ']) ?_]
    intro c hc
    rcases List.mem_append.1 hc with h | h
    · exact hall c h
    · simp at h; subst h; rfl
  · rw [List.dropWhile_append]
    have hne : ¬(y.dropWhile pyIsSpace).isEmpty := by
      rw [List.isEmpty_iff, List.dropWhile_eq_nil_iff]
      push_neg at hall ⊢
      obtain ⟨c, hc, hcs⟩ := hall
      exact ⟨c, hc, by simpa using hcs⟩
    rw [if_neg hne, List.reverse_append]
    have hsing : (([' '] : Str).reverse ++ (y.dropWhile pyIsSpace).reverse) =
        ' ' :: (y.dropWhile pyIsSpace).reverse := rfl
    rw [hsing, List.dropWhile_cons, if_pos (by decide)]

theorem pyStrip_pad (s : Str) :
    pyStrip ((' ' :: s) ++ [' ']) = pyStrip s := by
  rw [pyStrip_append_space]
  unfold pyStrip
  rw [List.dropWhile_cons, if_pos (by decide)]

/-- Claim C10: the dimension resolver strips leading and trailing
whitespace before matching, so a space-padded spec resolves exactly like
the unpadded one (for both `parse_pixels_or_percent` and
`parse_padding`); in particular `" 50 "` resolves to 50 although it does
not match `^%?\d+%?$` as written. -/
theorem claim_C10_strip_invariance (s : Str) (b h : ℕ) :
    parse_pixels_or_percent ((' ' :: s) ++ [' ']) b = parse_pixels_or_percent s b ∧
    parse_padding ((' ' :: s) ++ [' ']) h = parse_padding s h ∧
    parse_pixels_or_percent (str " 50 ") 100 = .ok 50 ∧
    dimGrammar (str " 50 ") = false := by
  refine ⟨?_, ?_, by decide, by decide⟩
  · unfold parse_pixels_or_percent
    rw [pyStrip_pad]
  · unfold parse_padding
    rw [pyStrip_pad]


theorem head_percent_structure {v : Str} (h : v.head? = some '%') : v = '%' :: v.tail := by
  cases v with
  | nil => simp at h
  | cons a t => simp at h; subst h; rfl

theorem digit_ne_percent {c : Char} (h : pyIsDigit c = true) : c ≠ '%' := by
  intro he; subst he; exact absurd h (by decide)

theorem filter_percent_digits {ds : Str} (h : ds.all pyIsDigit = true) :
    ds.filter (fun c => c ≠ '%') = ds := by
  apply List.filter_eq_self.2
  intro c hc
  exact decide_eq_true (digit_ne_percent (List.all_eq_true.1 h c hc))

theorem dimGrammar_spec (v : Str) (h : dimGrammar v = true) :
    ∃ ds, ds ≠ [] ∧ ds.all pyIsDigit = true ∧ regexPD v = some ds ∧
      (v = ds ∨ v = ds ++ ['%'] ∨ v = '%' :: ds ∨ v = '%' :: (ds ++ ['%'])) := by
  simp only [dimGrammar, decide_eq_true_eq] at h
  refine ⟨(if v.head? = some '%' then v.tail else v).takeWhile pyIsDigit, h.1, ?_, ?_, ?_⟩
  · rw [List.all_eq_true]
    intro c hc
    exact List.mem_takeWhile_imp hc
  · simp only [regexPD]
    rw [if_pos h]
  · have hsplit := List.takeWhile_append_dropWhile
      (p := pyIsDigit) (l := if v.head? = some '%' then v.tail else v)
    by_cases hp : v.head? = some '%'
    · rw [if_pos hp] at hsplit h ⊢
      have hv := head_percent_structure hp
      rcases h.2 with hr | hr
      · rw [hr, List.append_nil] at hsplit
        right; right; left
        rw [← hsplit] at hv
        exact hv
      · rw [hr] at hsplit
        right; right; right
        rw [← hsplit] at hv
        exact hv
    · rw [if_neg hp] at hsplit h ⊢
      rcases h.2 with hr | hr
      · rw [hr, List.append_nil] at hsplit
        left; exact hsplit.symm
      · rw [hr] at hsplit
        right; left; exact hsplit.symm

theorem regexPD_none (v : Str) (h : dimGrammar v = false) : regexPD v = none := by
  simp only [dimGrammar, decide_eq_false_iff_not] at h
  simp only [regexPD]
  rw [if_neg h]

theorem dimGrammar_of_digits (v : Str) (h : pyIsDigitStr v = true) :
    dimGrammar v = true := by
  simp only [pyIsDigitStr, Bool.and_eq_true, decide_eq_true_eq] at h
  obtain ⟨hne, hall⟩ := h
  have hhead : ¬(v.head? = some '%') := by
    cases v with
    | nil => simp
    | cons a t =>
      simp only [List.head?_cons, Option.some_inj]
      have : pyIsDigit a = true := List.all_eq_true.1 hall a (by simp)
      exact digit_ne_percent this
  simp only [dimGrammar, decide_eq_true_eq]
  rw [if_neg hhead]
  constructor
  · rw [List.takeWhile_eq_self_iff.2 ?_]
    · exact hne
    · intro a ha; exact List.all_eq_true.1 hall a ha
  · left
    rw [List.dropWhile_eq_nil_iff]
    intro a ha; exact List.all_eq_true.1 hall a ha

/-- Claim C4 is wrong as stated: the resolver succeeds on `" 50 "`, which
does not match the grammar `^%?\d+%?$`, because the input is
whitespace-stripped first. -/
theorem claim_C4_counterexample :
    parse_pixels_or_percent (str " 50 ") 200 = .ok 50 ∧
    dimGrammar (str " 50 ") = false := by decide

/-- Claim C4 amended: the resolver succeeds exactly on strings whose
whitespace-stripped form matches `^%?\d+%?$`; percentage interpretation
applies exactly when a `%` is present in the stripped form (digit value
run through the float percentage computation), otherwise a pure digit
string is an absolute pixel count, and every other string fails with the
`ValueError` (`InvalidDimension`).  (The model assumes values within
binary64 range.) -/
theorem claim_C4_amended (s : Str) (b : ℕ) :
    (parse_pixels_or_percent s b).isOk = dimGrammar (pyStrip s) ∧
    (dimGrammar (pyStrip s) = true →
      ('%' ∈ pyStrip s →
        parse_pixels_or_percent s b =
          .ok (pyPercentCalc b (digitsVal ((pyStrip s).filter (fun c => c ≠ '%'))))) ∧
      ('%' ∉ pyStrip s →
        parse_pixels_or_percent s b = .ok (digitsVal (pyStrip s)))) ∧
    (dimGrammar (pyStrip s) = false →
      parse_pixels_or_percent s b = .error ("Invalid value: " ++ String.mk (pyStrip s))) := by
  by_cases hg : dimGrammar (pyStrip s) = true
  · obtain ⟨ds, hne, hdig, hpd, hforms⟩ := dimGrammar_spec (pyStrip s) hg
    by_cases hpc : '%' ∈ pyStrip s
    · have hds : ∀ a ∈ ds, ¬a = '%' :=
        fun a ha => digit_ne_percent (List.all_eq_true.1 hdig a ha)
      have hfilter : (pyStrip s).filter (fun c => c ≠ '%') = ds := by
        rcases hforms with hf | hf | hf | hf <;> rw [hf] <;>
          simp [List.filter_append, List.filter_cons] <;> exact hds
      have hparse : parse_pixels_or_percent s b = .ok (pyPercentCalc b (digitsVal ds)) := by
        simp only [parse_pixels_or_percent]
        rw [hpd, show decide ('%' ∈ pyStrip s) = true from decide_eq_true hpc]
      refine ⟨?_, fun _ => ⟨fun _ => ?_, fun hno => absurd hpc hno⟩, fun hf => absurd hg ?_⟩
      · rw [hparse, hg]; rfl
      · rw [hparse, hfilter]
      · rw [hf]; exact Bool.false_ne_true
    · have hform : pyStrip s = ds := by
        rcases hforms with hf | hf | hf | hf
        · exact hf
        · exact absurd (by rw [hf]; simp) hpc
        · exact absurd (by rw [hf]; simp) hpc
        · exact absurd (by rw [hf]; simp) hpc
      have hisdig : pyIsDigitStr (pyStrip s) = true := by
        simp only [pyIsDigitStr, Bool.and_eq_true, decide_eq_true_eq]
        rw [hform]
        exact ⟨hne, hdig⟩
      have hparse : parse_pixels_or_percent s b = .ok (digitsVal (pyStrip s)) := by
        simp only [parse_pixels_or_percent]
        rw [hpd, show decide ('%' ∈ pyStrip s) = false from decide_eq_false hpc]
        rw [if_pos hisdig]
      refine ⟨?_, fun _ => ⟨fun hyes => absurd hyes hpc, fun _ => hparse⟩, fun hf => absurd hg ?_⟩
      · rw [hparse, hg]; rfl
      · rw [hf]; exact Bool.false_ne_true
  · have hgf : dimGrammar (pyStrip s) = false := Bool.eq_false_iff.2 hg
    have hpd : regexPD (pyStrip s) = none := regexPD_none _ hgf
    have hisdig : pyIsDigitStr (pyStrip s) = false := by
      rcases Bool.eq_false_or_eq_true (pyIsDigitStr (pyStrip s)) with h | h
      · exact absurd (dimGrammar_of_digits _ h) hg
      · exact h
    have hparse : parse_pixels_or_percent s b =
        .error ("Invalid value: " ++ String.mk (pyStrip s)) := by
      simp only [parse_pixels_or_percent]
      rw [hpd]
      rw [if_neg (by rw [hisdig]; exact Bool.false_ne_true)]
    refine ⟨?_, fun hf => absurd hf hg, fun _ => hparse⟩
    rw [hparse, hgf]; rfl

theorem claim_C4_amended_witness :
    parse_pixels_or_percent (str " 50% ") 200 =
      .ok (pyPercentCalc 200 (digitsVal ((pyStrip (str " 50% ")).filter (fun c => c ≠ '%')))) :=
  ((claim_C4_amended (str " 50% ") 200).2.1 (by decide)).1 (by decide)

theorem replaceEsc_cons_ne {c : Char} (hc : c ≠ '\\') (l : Str) :
    replaceEsc (c :: l) = c :: replaceEsc l := by
  rw [replaceEsc.eq_def]
  split
  · rename_i heq
    injection heq with h1 _
    exact absurd h1 hc
  · rename_i c2 rest heq
    injection heq with h1 h2
    rw [h1, h2]
  · rename_i heq
    exact absurd heq (by simp)

theorem replaceEsc_id {a : Str} (ha : '\\' ∉ a) : replaceEsc a = a := by
  induction a with
  | nil => rfl
  | cons c t ih =>
    have hc : c ≠ '\\' := fun h => ha (h ▸ List.mem_cons_self c t)
    rw [replaceEsc_cons_ne hc, ih (fun h => ha (List.mem_cons_of_mem c h))]

theorem replaceEsc_append_no_bs {a : Str} (b : Str) (ha : '\\' ∉ a) :
    replaceEsc (a ++ b) = a ++ replaceEsc b := by
  induction a with
  | nil => rfl
  | cons c t ih =>
    have hc : c ≠ '\\' := fun h => ha (h ▸ List.mem_cons_self c t)
    rw [List.cons_append, replaceEsc_cons_ne hc,
      ih (fun h => ha (List.mem_cons_of_mem c h)), List.cons_append]

theorem splitNL_cons_nl (t : Str) : splitNL ('\n' :: t) = [] :: splitNL t := by
  rw [splitNL.eq_def]
  simp

theorem splitNL_cons_ne {c : Char} (hc : c ≠ '\n') (t : Str) :
    splitNL (c :: t) =
      match splitNL t with
      | h :: t2 => (c :: h) :: t2
      | [] => [[c]] := by
  rw [splitNL.eq_def]
  simp [hc]

theorem splitNL_ne_nil (s : Str) : splitNL s ≠ [] := by
  cases s with
  | nil => simp [splitNL]
  | cons c t =>
    by_cases hc : c = '\n'
    · subst hc; rw [splitNL_cons_nl]; simp
    · rw [splitNL_cons_ne hc]
      cases splitNL t <;> simp

theorem splitNL_no_nl {a : Str} (ha : '\n' ∉ a) : splitNL a = [a] := by
  induction a with
  | nil => rfl
  | cons c t ih =>
    have hc : c ≠ '\n' := fun h => ha (h ▸ List.mem_cons_self c t)
    rw [splitNL_cons_ne hc, ih (fun h => ha (List.mem_cons_of_mem c h))]

theorem splitNL_append_nl (x y : Str) :
    splitNL (x ++ '\n' :: y) = splitNL x ++ splitNL y := by
  induction x with
  | nil => rw [List.nil_append, splitNL_cons_nl]; rfl
  | cons c t ih =>
    by_cases hc : c = '\n'
    · subst hc
      rw [List.cons_append, splitNL_cons_nl, ih, splitNL_cons_nl]
      rfl
    · obtain ⟨h0, t0, ht⟩ : ∃ h0 t0, splitNL t = h0 :: t0 := by
        cases hsp : splitNL t with
        | nil => exact absurd hsp (splitNL_ne_nil t)
        | cons h0 t0 => exact ⟨h0, t0, rfl⟩
      rw [List.cons_append, splitNL_cons_ne hc, ih, ht, splitNL_cons_ne hc, ht]
      rfl

theorem joinNL_cons_cons (b : Str) (c : Str) (rest : List Str) :
    joinNL (b :: c :: rest) = b ++ '\n' :: joinNL (c :: rest) := rfl

/-- Claim C6: the layout engine converts literal `\\n` escapes to real
line breaks, splits on newlines into independently wrapped paragraphs,
and preserves each empty paragraph as an empty output block: joining two
nonblank escape-free paragraphs with two newlines (escaped or real)
yields exactly the three blocks `[wrapped₁, empty, wrapped₂]`. -/
theorem claim_C6_paragraphs (t1 t2 : Str) (W : ℕ) (s1 s2 : Str)
    (h1nl : '\n' ∉ t1) (h1bs : '\\' ∉ t1) (h1b : isBlank t1 = false)
    (h2nl : '\n' ∉ t2) (h2bs : '\\' ∉ t2) (h2b : isBlank t2 = false)
    (hw1 : wrap_for_multiline t1 W = .ok s1)
    (hw2 : wrap_for_multiline t2 W = .ok s2) :
    wrapBlocks (t1 ++ '\\' :: 'n' :: '\\' :: 'n' :: t2) W = .ok [s1, [], s2] ∧
    wrapBlocks (t1 ++ '\n' :: '\n' :: t2) W = .ok [s1, [], s2] ∧
    wrap_for_multiline (t1 ++ '\\' :: 'n' :: '\\' :: 'n' :: t2) W =
      .ok (s1 ++ '\n' :: '\n' :: s2) ∧
    wrap_for_multiline (t1 ++ '\n' :: '\n' :: t2) W =
      .ok (s1 ++ '\n' :: '\n' :: s2) := by
  have hfill1 : pyFill t1 (W / 5) = .ok s1 := by
    simp only [wrap_for_multiline, wrapBlocks, replaceEsc_id h1bs,
      splitNL_no_nl h1nl] at hw1
    cases hf : pyFill t1 (W / 5) with
    | error e => simp [hf, h1b, Except.map, List.mapM.loop, Except.instMonad, Except.bind, Except.pure] at hw1
    | ok b =>
      simp [hf, h1b, Except.map, List.mapM.loop, Except.instMonad, Except.bind, Except.pure, joinNL] at hw1
      rw [hw1]
  have hfill2 : pyFill t2 (W / 5) = .ok s2 := by
    simp only [wrap_for_multiline, wrapBlocks, replaceEsc_id h2bs,
      splitNL_no_nl h2nl] at hw2
    cases hf : pyFill t2 (W / 5) with
    | error e => simp [hf, h2b, Except.map, List.mapM.loop, Except.instMonad, Except.bind, Except.pure] at hw2
    | ok b =>
      simp [hf, h2b, Except.map, List.mapM.loop, Except.instMonad, Except.bind, Except.pure, joinNL] at hw2
      rw [hw2]
  have hesc : replaceEsc (t1 ++ '\\' :: 'n' :: '\\' :: 'n' :: t2) =
      t1 ++ '\n' :: '\n' :: t2 := by
    rw [replaceEsc_append_no_bs _ h1bs]
    have : replaceEsc ('\\' :: 'n' :: '\\' :: 'n' :: t2) =
        '\n' :: '\n' :: replaceEsc t2 := rfl
    rw [this, replaceEsc_id h2bs]
  have hescr : replaceEsc (t1 ++ '\n' :: '\n' :: t2) = t1 ++ '\n' :: '\n' :: t2 := by
    rw [replaceEsc_append_no_bs _ h1bs]
    have : replaceEsc ('\n' :: '\n' :: t2) = '\n' :: '\n' :: replaceEsc t2 := by
      rw [replaceEsc_cons_ne (by decide), replaceEsc_cons_ne (by decide)]
    rw [this, replaceEsc_id h2bs]
  have hsplit : splitNL (t1 ++ '\n' :: '\n' :: t2) = [t1, [], t2] := by
    rw [splitNL_append_nl]
    have : ('\n' :: t2 : Str) = [] ++ '\n' :: t2 := rfl
    rw [this, splitNL_append_nl, splitNL_no_nl h1nl, splitNL_no_nl h2nl]
    rfl
  have hblocks : ∀ u : Str, replaceEsc u = t1 ++ '\n' :: '\n' :: t2 →
      wrapBlocks u W = .ok [s1, [], s2] := by
    intro u hu
    simp only [wrapBlocks, hu, hsplit]
    simp [List.mapM.loop, Except.instMonad, Except.bind, Except.pure, h1b, h2b, hfill1, hfill2,
      show isBlank ([] : Str) = true from rfl]
  have hb1 := hblocks _ hesc
  have hb2 := hblocks _ hescr
  refine ⟨hb1, hb2, ?_, ?_⟩
  · simp only [wrap_for_multiline, hb1, Except.map]
    rfl
  · simp only [wrap_for_multiline, hb2, Except.map]
    rfl

theorem claim_C6_paragraphs_witness :
    wrapBlocks (str "line1\n\nline2") 40 = .ok [str "line1", [], str "line2"] ∧
    wrap_for_multiline (str "line1\\n\\nline2") 40 = .ok (str "line1\n\nline2") := by
  have h := claim_C6_paragraphs (str "line1") (str "line2") 40 (str "line1") (str "line2")
    (by decide) (by decide) (by decide) (by decide) (by decide) (by decide)
    (by decide) (by decide)
  exact ⟨h.2.1, h.2.2.1⟩

/-- Claim C7: an invalid padding or color string makes `process_image`
raise before any output effect, so no file is saved; `main` converts the
`ValueError` into a CLI error message and exits with the non-zero
argparse status 2; on success the confirmation naming the output path is
printed and the exit status is 0. -/
theorem claim_C7_no_output_on_validation_error (C : Collab)
    (input output comment padding bg_color text_color font_path : Str)
    (font_size : ℕ) (align valign wrap_width : Str) :
    (((∃ e, parse_padding padding C.imgH = .error e) ∨
      (∃ e, parse_color C.getrgb bg_color = .error e) ∨
      (∃ e, parse_color C.getrgb text_color = .error e)) →
      (mainRun C input output comment padding bg_color text_color font_path
          font_size align valign wrap_width).1 = 2 ∧
      ∀ o, Effect.saved o ∉ (mainRun C input output comment padding bg_color
          text_color font_path font_size align valign wrap_width).2) ∧
    ((process_image C input output comment padding bg_color text_color font_path
        font_size align valign wrap_width).2 = .ok () →
      (mainRun C input output comment padding bg_color text_color font_path
          font_size align valign wrap_width).1 = 0 ∧
      Effect.saved output ∈ (mainRun C input output comment padding bg_color
          text_color font_path font_size align valign wrap_width).2 ∧
      Effect.printed (str "[+] Saved output image to: " ++ output) ∈
        (mainRun C input output comment padding bg_color text_color font_path
          font_size align valign wrap_width).2) := by
  constructor
  · intro hbad
    cases hp : parse_padding padding C.imgH with
    | error e => simp [mainRun, process_image, hp]
    | ok bp =>
      cases hbg : parse_color C.getrgb bg_color with
      | error e => simp [mainRun, process_image, hp, hbg]
      | ok bgv =>
        cases htc : parse_color C.getrgb text_color with
        | error e => simp [mainRun, process_image, hp, hbg, htc]
        | ok tcv =>
          rcases hbad with ⟨e, he⟩ | ⟨e, he⟩ | ⟨e, he⟩
          · rw [hp] at he; exact absurd he (by simp)
          · rw [hbg] at he; exact absurd he (by simp)
          · rw [htc] at he; exact absurd he (by simp)
  · intro hok
    cases hp : parse_padding padding C.imgH with
    | error e => simp [process_image, hp] at hok
    | ok bp =>
      cases hbg : parse_color C.getrgb bg_color with
      | error e => simp [process_image, hp, hbg] at hok
      | ok bgv =>
        cases htc : parse_color C.getrgb text_color with
        | error e => simp [process_image, hp, hbg, htc] at hok
        | ok tcv =>
          cases hww : parse_pixels_or_percent wrap_width C.imgW with
          | error e => simp [process_image, hp, hbg, htc, hww] at hok
          | ok mtw =>
            cases hwr : wrap_for_multiline comment mtw.toNat with
            | error e => simp [process_image, hp, hbg, htc, hww, hwr] at hok
            | ok wrapped =>
              simp [mainRun, process_image, hp, hbg, htc, hww, hwr]

theorem claim_C7_witness :
    (mainRun ⟨400, 300, (fun s => if s = str "black" then some (0, 0, 0) else none),
        (fun _ _ => false), (fun _ _ => (0, 0, 50, 20))⟩
      (str "in.png") (str "out.png") (str "Hello") (str "abc") (str "black")
      (str "black") (str "arial") 16 (str "left") (str "top") (str "300")).1 = 2 ∧
    ∀ o, Effect.saved o ∉
      (mainRun ⟨400, 300, (fun s => if s = str "black" then some (0, 0, 0) else none),
        (fun _ _ => false), (fun _ _ => (0, 0, 50, 20))⟩
      (str "in.png") (str "out.png") (str "Hello") (str "abc") (str "black")
      (str "black") (str "arial") 16 (str "left") (str "top") (str "300")).2 :=
  (claim_C7_no_output_on_validation_error _ _ _ _ _ _ _ _ _ _ _ _).1
    (Or.inl ⟨"Invalid padding value: abc", by decide⟩)

theorem pySplitWS_ne_nil : ∀ (s : Str), ∀ w ∈ pySplitWS s, w ≠ [] := by
  intro s
  induction s with
  | nil => intro w hw; simp [pySplitWS] at hw
  | cons c cs ih =>
    intro w hw
    simp only [pySplitWS] at hw
    by_cases hc : pyIsSpace c
    · rw [if_pos hc] at hw; exact ih w hw
    · rw [if_neg hc] at hw
      cases hsp : pySplitWS cs with
      | nil =>
        rw [hsp] at hw
        simp at hw
        subst hw; simp
      | cons w0 ws0 =>
        rw [hsp] at hw
        cases cs with
        | nil =>
          simp at hw
          subst hw; simp
        | cons d ds =>
          have hw2 : w ∈ if pyIsSpace d = true then [c] :: w0 :: ws0
              else (c :: w0) :: ws0 := hw
          by_cases hd : pyIsSpace d
          · rw [if_pos hd] at hw2
            rcases List.mem_cons.1 hw2 with h | h
            · subst h; simp
            · exact ih w (hsp ▸ h)
          · rw [if_neg hd] at hw2
            rcases List.mem_cons.1 hw2 with h | h
            · subst h; simp
            · exact ih w (hsp ▸ List.mem_cons_of_mem w0 h)

theorem wrapTextGo_bound (measure : Str → ℕ) (W : ℕ) :
    ∀ (ws : List Str) (lines : List Str) (current : Str),
    (∀ L ∈ lines, measure L ≤ W) → (current = [] ∨ measure current ≤ W) →
    (∀ w ∈ ws, measure w ≤ W) →
    ∀ L ∈ wrapTextGo measure W ws lines current, measure L ≤ W := by
  intro ws
  induction ws with
  | nil =>
    intro lines current hl hc _ L hL
    simp only [wrapTextGo] at hL
    by_cases hcur : current = []
    · rw [if_neg (by simp [hcur])] at hL
      exact hl L hL
    · rw [if_pos (by simp [hcur])] at hL
      rcases List.mem_append.1 hL with h | h
      · exact hl L h
      · simp at h
        subst h
        rcases hc with h | h
        · exact absurd h hcur
        · exact h
  | cons w rest ih =>
    intro lines current hl hc hw L hL
    simp only [wrapTextGo] at hL
    by_cases ht : measure (if current = [] then w else current ++ ' ' :: w) ≤ W
    · rw [if_pos ht] at hL
      exact ih lines _ hl (Or.inr ht) (fun u hu => hw u (List.mem_cons_of_mem w hu)) L hL
    · rw [if_neg ht] at hL
      have hl2 : ∀ L2 ∈ (if current ≠ [] then lines ++ [current] else lines),
          measure L2 ≤ W := by
        intro L2 hL2
        by_cases hcur : current = []
        · rw [if_neg (by simp [hcur])] at hL2
          exact hl L2 hL2
        · rw [if_pos (by simp [hcur])] at hL2
          rcases List.mem_append.1 hL2 with h | h
          · exact hl L2 h
          · simp at h
            subst h
            rcases hc with h | h
            · exact absurd h hcur
            · exact h
      exact ih _ w hl2 (Or.inr (hw w (List.mem_cons_self w rest)))
        (fun u hu => hw u (List.mem_cons_of_mem w hu)) L hL

theorem wrapTextGo_acc_sub (measure : Str → ℕ) (W : ℕ) :
    ∀ (ws : List Str) (lines : List Str) (current : Str),
    ∃ suf, wrapTextGo measure W ws lines current = lines ++ suf := by
  intro ws
  induction ws with
  | nil =>
    intro lines current
    simp only [wrapTextGo]
    by_cases hcur : current = []
    · exact ⟨[], by rw [if_neg (by simp [hcur]), List.append_nil]⟩
    · exact ⟨[current], by rw [if_pos (by simp [hcur])]⟩
  | cons w rest ih =>
    intro lines current
    simp only [wrapTextGo]
    by_cases ht : measure (if current = [] then w else current ++ ' ' :: w) ≤ W
    · rw [if_pos ht]; exact ih lines _
    · rw [if_neg ht]
      by_cases hcur : current = []
      · rw [if_neg (by simp [hcur])]
        exact ih lines w
      · rw [if_pos (by simp [hcur])]
        obtain ⟨suf, hsuf⟩ := ih (lines ++ [current]) w
        exact ⟨[current] ++ suf, by rw [hsuf, List.append_assoc]⟩

theorem wrapTextGo_overlong (measure : Str → ℕ) (W : ℕ)
    (hmono1 : ∀ a b : Str, measure a ≤ measure (a ++ ' ' :: b))
    (w : Str) (hbig : W < measure w) (hwne : w ≠ []) :
    ∀ (ws : List Str) (lines : List Str), w ∈ wrapTextGo measure W ws lines w := by
  intro ws
  induction ws with
  | nil =>
    intro lines
    simp only [wrapTextGo]
    rw [if_pos (by simp [hwne])]
    simp
  | cons w2 rest ih =>
    intro lines
    simp only [wrapTextGo]
    rw [if_neg hwne]
    have hnot : ¬measure (w ++ ' ' :: w2) ≤ W :=
      fun h => absurd (le_trans (hmono1 w w2) h) (not_le.2 hbig)
    rw [if_neg hnot, if_pos (by simp [hwne])]
    obtain ⟨suf, hsuf⟩ := wrapTextGo_acc_sub measure W rest (lines ++ [w]) w2
    rw [hsuf]
    simp

theorem wrapTextGo_mem_overlong (measure : Str → ℕ) (W : ℕ)
    (hmono1 : ∀ a b : Str, measure a ≤ measure (a ++ ' ' :: b))
    (hmono2 : ∀ a b : Str, measure b ≤ measure (a ++ ' ' :: b))
    (w : Str) (hbig : W < measure w) (hwne : w ≠ []) :
    ∀ (ws : List Str) (lines : List Str) (current : Str),
    w ∈ ws → w ∈ wrapTextGo measure W ws lines current := by
  intro ws
  induction ws with
  | nil => intro lines current hmem; simp at hmem
  | cons w2 rest ih =>
    intro lines current hmem
    rcases List.mem_cons.1 hmem with heq | hmem2
    · subst heq
      simp only [wrapTextGo]
      by_cases hcur : current = []
      · subst hcur
        rw [if_pos rfl]
        have hnot : ¬measure w ≤ W := not_le.2 hbig
        rw [if_neg hnot, if_neg (by simp)]
        exact wrapTextGo_overlong measure W hmono1 w hbig hwne rest lines
      · rw [if_neg hcur]
        have hnot : ¬measure (current ++ ' ' :: w) ≤ W :=
          fun h => absurd (le_trans (hmono2 current w) h) (not_le.2 hbig)
        rw [if_neg hnot, if_pos (by simp [hcur])]
        exact wrapTextGo_overlong measure W hmono1 w hbig hwne rest _
    · simp only [wrapTextGo]
      by_cases ht : measure (if current = [] then w2 else current ++ ' ' :: w2) ≤ W
      · rw [if_pos ht]
        exact ih lines _ hmem2
      · rw [if_neg ht]
        exact ih _ w2 hmem2

/-- Claim C1 is wrong about the pipeline: `wrap_for_multiline` (the wrap
step `process_image` actually calls) wraps by character count
(`textwrap.fill` at `wrapWidthPx // 5`) and splits the single word
"abc" mid-word at wrap width 10, which no greedy pixel-measured wrap of
a single word can do (a lone word is always emitted whole). -/
theorem claim_C1_counterexample :
    wrap_for_multiline (str "abc") 10 = .ok (str "ab\nc") ∧
    str "ab\nc" ≠ str "abc" := by decide

/-- Claim C1 amended: the greedy pixel-measured wrapping algorithm is
implemented by `wrap_text`, which the image pipeline never calls (it
wraps by character count instead, splitting over-wide words).  For
`wrap_text`, with any measurement monotone under extending a line by a
space and a word: when every word fits the wrap width, every output line
fits, and a word wider than the wrap width appears as a line of its own,
unsplit. -/
theorem claim_C1_amended (measure : Str → ℕ) (W : ℕ) (text : Str)
    (hmono1 : ∀ a b : Str, measure a ≤ measure (a ++ ' ' :: b))
    (hmono2 : ∀ a b : Str, measure b ≤ measure (a ++ ' ' :: b)) :
    ((∀ w ∈ pySplitWS text, measure w ≤ W) →
      ∀ L ∈ wrapLines measure text W, measure L ≤ W) ∧
    (∀ w ∈ pySplitWS text, W < measure w → w ∈ wrapLines measure text W) := by
  constructor
  · intro hall L hL
    exact wrapTextGo_bound measure W (pySplitWS text) [] [] (by simp) (Or.inl rfl)
      hall L hL
  · intro w hw hbig
    exact wrapTextGo_mem_overlong measure W hmono1 hmono2 w hbig
      (pySplitWS_ne_nil text w hw) (pySplitWS text) [] [] hw

theorem claim_C1_amended_witness :
    str "abcdefgh" ∈ wrapLines (fun s => 6 * s.length) (str "ab abcdefgh cd") 30 :=
  (claim_C1_amended (fun s => 6 * s.length) 30 (str "ab abcdefgh cd")
      (fun a b => by simp only [List.length_append, List.length_cons]; omega)
      (fun a b => by simp only [List.length_append, List.length_cons]; omega)).2
    (str "abcdefgh") (by decide) (by decide)

theorem chunkMeasure_cons (c : Str) (cs : List Str) :
    chunkMeasure (c :: cs) = c.length + 1 + chunkMeasure cs := by
  simp [chunkMeasure]; omega

theorem chunkMeasure_append (a b : List Str) :
    chunkMeasure (a ++ b) = chunkMeasure a + chunkMeasure b := by
  simp [chunkMeasure]; omega

theorem takeFits_split (width : ℕ) :
    ∀ (l : List Str) (n : ℕ), (takeFits width l n).1 ++ (takeFits width l n).2.1 = l := by
  intro l
  induction l with
  | nil => intro n; rfl
  | cons c cs ih =>
    intro n
    simp only [takeFits]
    by_cases h : n + c.length ≤ width
    · rw [if_pos h]
      show c :: ((takeFits width cs (n + c.length)).1 ++
        (takeFits width cs (n + c.length)).2.1) = c :: cs
      rw [ih]
    · rw [if_neg h]
      rfl

theorem rfindDash_lt {s : Str} {k : ℕ} (h : rfindDash s = some k) : k < s.length := by
  unfold rfindDash at h
  cases hfi : s.reverse.findIdx? (fun c => c = '-') with
  | none => rw [hfi] at h; exact absurd h (by simp)
  | some j =>
    rw [hfi] at h
    have hk : k = s.length - 1 - j := by
      injection h with h2
      exact h2.symm
    have hs : s ≠ [] := by
      intro hnil
      subst hnil
      simp at hfi
    have : 1 ≤ s.length := List.length_pos.2 hs
    omega

theorem handleEnd_le (width curLen : ℕ) (hw : 1 ≤ width) (c : Str) :
    handleEnd width curLen c ≤ width - curLen := by
  unfold handleEnd
  rw [show (if width < 1 then 1 else width - curLen) = width - curLen from
    by rw [if_neg (by omega)]]
  by_cases hsl : width - curLen < c.length
  · rw [if_pos hsl]
    cases hrf : rfindDash (c.take (width - curLen)) with
    | none => exact le_rfl
    | some h =>
      show (if 0 < h ∧ ((c.take h).any fun ch => decide (ch ≠ '-')) = true
        then h + 1 else width - curLen) ≤ width - curLen
      by_cases hcond : 0 < h ∧ ((c.take h).any fun ch => decide (ch ≠ '-')) = true
      · rw [if_pos hcond]
        have := rfindDash_lt hrf
        rw [List.length_take] at this
        omega
      · rw [if_neg hcond]
  · rw [if_neg hsl]

theorem handleEnd_pos (width : ℕ) (hw : 1 ≤ width) (c : Str) :
    1 ≤ handleEnd width 0 c := by
  unfold handleEnd
  rw [show (if width < 1 then 1 else width - 0) = width from by rw [if_neg (by omega)]; omega]
  by_cases hsl : width < c.length
  · rw [if_pos hsl]
    cases hrf : rfindDash (c.take width) with
    | none => exact hw
    | some h =>
      show 1 ≤ if 0 < h ∧ ((c.take h).any fun ch => decide (ch ≠ '-')) = true
        then h + 1 else width
      by_cases hcond : 0 < h ∧ ((c.take h).any fun ch => decide (ch ≠ '-')) = true
      · rw [if_pos hcond]; omega
      · rw [if_neg hcond]; exact hw
  · rw [if_neg hsl]; exact hw

theorem handleLW_drop_le (width curLen : ℕ) (c : Str) :
    (handleLW width curLen c).2.length ≤ c.length := by
  simp only [handleLW, List.length_drop]
  omega

theorem drop_len_lt {e : ℕ} (c : Str) (hc : 1 ≤ c.length) (he : 1 ≤ e) :
    (c.drop e).length < c.length := by
  rw [List.length_drop]; omega

theorem handleLW_drop_lt (width : ℕ) (hw : 1 ≤ width) (c : Str) (hc : width < c.length) :
    (handleLW width 0 c).2.length < c.length := by
  simp only [handleLW]
  exact drop_len_lt c (by omega) (handleEnd_pos width hw c)

theorem handleLW_drop_ne (width curLen : ℕ) (hw : 1 ≤ width) (c : Str)
    (hc : width < c.length) : (handleLW width curLen c).2 ≠ [] := by
  simp only [handleLW]
  have hle := handleEnd_le width curLen hw c
  intro hnil
  have : (c.drop (handleEnd width curLen c)).length = 0 := by rw [hnil]; rfl
  rw [List.length_drop] at this
  omega

theorem handleLW_fst_ne (width : ℕ) (hw : 1 ≤ width) (c : Str) (hc : c ≠ []) :
    (handleLW width 0 c).1 ≠ [] := by
  simp only [handleLW]
  intro hnil
  rcases List.take_eq_nil_iff.1 hnil with h | h
  · exact absurd h (by have := handleEnd_pos width hw c; omega)
  · exact absurd h hc

theorem handleLW_fst_len (width curLen : ℕ) (hw : 1 ≤ width) (c : Str) :
    curLen + (handleLW width curLen c).1.length ≤ width ∨ width < curLen := by
  by_cases hcl : curLen ≤ width
  · left
    simp only [handleLW, List.length_take]
    have := handleEnd_le width curLen hw c
    omega
  · right; omega

theorem handleLW_fst_subset (width curLen : ℕ) (c : Str) :
    ∀ ch ∈ (handleLW width curLen c).1, ch ∈ c := by
  simp only [handleLW]
  intro ch h
  exact List.take_subset _ _ h

theorem handleLW_snd_subset (width curLen : ℕ) (c : Str) :
    ∀ ch ∈ (handleLW width curLen c).2, ch ∈ c := by
  simp only [handleLW]
  intro ch h
  exact List.drop_subset _ _ h

theorem lineBreak_rest_le2 (width : ℕ) (l : List Str) :
    chunkMeasure (lineBreak width l).2 ≤ chunkMeasure (takeFits width l 0).2.1 := by
  simp only [lineBreak]
  cases hr : (takeFits width l 0).2.1 with
  | nil => simp [chunkMeasure]
  | cons d ds =>
    show chunkMeasure (if width < d.length then
        ((takeFits width l 0).1 ++ [(handleLW width (takeFits width l 0).2.2 d).1],
          (handleLW width (takeFits width l 0).2.2 d).2 :: ds)
      else ((takeFits width l 0).1, d :: ds)).2 ≤ chunkMeasure (d :: ds)
    by_cases hd : width < d.length
    · rw [if_pos hd]
      show chunkMeasure ((handleLW width (takeFits width l 0).2.2 d).2 :: ds) ≤
        chunkMeasure (d :: ds)
      simp only [chunkMeasure_cons]
      have := handleLW_drop_le width (takeFits width l 0).2.2 d
      omega
    · rw [if_neg hd]

theorem takeFits_rest_le (width : ℕ) (l : List Str) :
    chunkMeasure (takeFits width l 0).2.1 ≤ chunkMeasure l := by
  have h := takeFits_split width l 0
  calc chunkMeasure (takeFits width l 0).2.1
      ≤ chunkMeasure (takeFits width l 0).1 + chunkMeasure (takeFits width l 0).2.1 :=
        Nat.le_add_left _ _
    _ = chunkMeasure l := by rw [← chunkMeasure_append, h]

theorem lineBreak_rest_le (width : ℕ) (l : List Str) :
    chunkMeasure (lineBreak width l).2 ≤ chunkMeasure l :=
  le_trans (lineBreak_rest_le2 width l) (takeFits_rest_le width l)

theorem lineBreak_rest_lt (width : ℕ) (hw : 1 ≤ width) (c : Str) (cs : List Str) :
    chunkMeasure (lineBreak width (c :: cs)).2 < chunkMeasure (c :: cs) := by
  by_cases hfit : 0 + c.length ≤ width
  · have htf : (takeFits width (c :: cs) 0).1 =
        c :: (takeFits width cs (0 + c.length)).1 := by
      simp only [takeFits]
      rw [if_pos hfit]
    have hle := lineBreak_rest_le2 width (c :: cs)
    have happ := chunkMeasure_append (takeFits width (c :: cs) 0).1
      (takeFits width (c :: cs) 0).2.1
    rw [takeFits_split width (c :: cs) 0, htf] at happ
    simp only [chunkMeasure_cons] at happ ⊢
    omega
  · have htf : takeFits width (c :: cs) 0 = ([], c :: cs, 0) := by
      simp only [takeFits]
      rw [if_neg hfit]
    have hc : width < c.length := by omega
    simp only [lineBreak, htf]
    rw [if_pos hc]
    show chunkMeasure ((handleLW width 0 c).2 :: cs) < chunkMeasure (c :: cs)
    simp only [chunkMeasure_cons]
    have := handleLW_drop_lt width hw c hc
    omega

theorem wrapStep_decrease (width : ℕ) (hw : 1 ≤ width) (lines : List Str)
    (c : Str) (cs : List Str) :
    chunkMeasure (wrapStep width lines c cs).1 < chunkMeasure (c :: cs) := by
  simp only [wrapStep]
  by_cases hdrop : lines ≠ [] ∧ isBlank c = true
  · rw [if_pos hdrop]
    have := lineBreak_rest_le width cs
    rw [chunkMeasure_cons]
    omega
  · rw [if_neg hdrop]
    exact lineBreak_rest_lt width hw c cs

theorem wrapChunksGo_ok (width : ℕ) (hw : 1 ≤ width) :
    ∀ (fuel : ℕ) (chunks : List Str) (lines : List Str),
    chunkMeasure chunks < fuel →
    ∃ ls, wrapChunksGo width fuel chunks lines = .ok ls := by
  intro fuel
  induction fuel with
  | zero => intro chunks lines h; exact absurd h (Nat.not_lt_zero _)
  | succ n ih =>
    intro chunks lines h
    cases chunks with
    | nil => exact ⟨lines.reverse, rfl⟩
    | cons c cs =>
      have hd := wrapStep_decrease width hw lines c cs
      exact ih _ _ (by omega)

theorem textwrapWrap_ok (text : Str) (width : ℕ) (hw : 1 ≤ width) :
    ∃ ls, textwrapWrap text width = .ok ls := by
  unfold textwrapWrap
  rw [if_neg (by omega)]
  exact wrapChunksGo_ok width hw _ _ _ (by unfold chunkFuel chunkMeasure; omega)

theorem pyFill_ok (text : Str) (width : ℕ) (hw : 1 ≤ width) :
    ∃ s, pyFill text width = .ok s := by
  obtain ⟨ls, hls⟩ := textwrapWrap_ok text width hw
  exact ⟨joinNL ls, by rw [pyFill, hls]; rfl⟩

theorem mapM_loop_ok {α β : Type} (f : α → Except String β) :
    ∀ (l : List α) (acc : List β), (∀ a ∈ l, ∃ b, f a = .ok b) →
    ∃ bs, List.mapM.loop f l acc = .ok bs := by
  intro l
  induction l with
  | nil => intro acc _; exact ⟨acc.reverse, rfl⟩
  | cons a t ih =>
    intro acc hall
    obtain ⟨b, hb⟩ := hall a (List.mem_cons_self a t)
    obtain ⟨bs, hbs⟩ := ih (b :: acc) (fun x hx => hall x (List.mem_cons_of_mem a hx))
    refine ⟨bs, ?_⟩
    simp only [List.mapM.loop, hb]
    exact hbs

/-- Claim C3 is wrong about the code: the pipeline's wrap step raises for
small wrap widths.  At `wrapWidthPx = 4` the character budget `4 // 5`
is zero and `textwrap.fill` raises `ValueError` on the nonblank caption
"hi" instead of returning a wrapped block. -/
theorem claim_C3_counterexample :
    wrap_for_multiline (str "hi") 4 = .error "invalid width 0 (must be > 0)" := by decide

/-- Claim C3 amended: the wrap step terminates normally, returning a
wrapped block, for every finite caption whenever `wrapWidthPx ≥ 5` (the
loop always makes progress: each iteration consumes a chunk or shortens
one), and for every caption with no nonblank paragraph — including the
empty caption and whitespace-only captions such as a single space — at
any width whatsoever; but for `wrapWidthPx < 5` a caption with a
nonblank paragraph raises `ValueError` (see the counterexample). -/
theorem claim_C3_amended (t : Str) (W : ℕ) (h5 : 5 ≤ W) :
    (∃ s, wrap_for_multiline t W = .ok s) ∧
    (∀ (t2 : Str) (W2 : ℕ), (∀ p ∈ splitNL (replaceEsc t2), isBlank p = true) →
      ∃ s2, wrap_for_multiline t2 W2 = .ok s2) := by
  constructor
  · have hw : 1 ≤ W / 5 := (Nat.one_le_div_iff (by norm_num)).2 h5
    have hall : ∀ p ∈ splitNL (replaceEsc t),
        ∃ b, (if isBlank p = true then pure [] else pyFill p (W / 5)) = Except.ok b := by
      intro p _
      by_cases hb : isBlank p = true
      · exact ⟨[], by rw [if_pos hb]; rfl⟩
      · obtain ⟨s, hs⟩ := pyFill_ok p (W / 5) hw
        exact ⟨s, by rw [if_neg hb]; exact hs⟩
    obtain ⟨bs, hbs⟩ := mapM_loop_ok _ (splitNL (replaceEsc t)) [] hall
    refine ⟨joinNL bs, ?_⟩
    simp only [wrap_for_multiline, wrapBlocks, List.mapM, hbs]
    rfl
  · intro t2 W2 hblank
    have hall : ∀ p ∈ splitNL (replaceEsc t2),
        ∃ b, (if isBlank p = true then pure [] else pyFill p (W2 / 5)) = Except.ok b := by
      intro p hp
      exact ⟨[], by rw [if_pos (hblank p hp)]; rfl⟩
    obtain ⟨bs, hbs⟩ := mapM_loop_ok _ (splitNL (replaceEsc t2)) [] hall
    refine ⟨joinNL bs, ?_⟩
    simp only [wrap_for_multiline, wrapBlocks, List.mapM, hbs]
    rfl

theorem claim_C3_amended_witness :
    (∃ s, wrap_for_multiline (str "hello world") 5 = .ok s) ∧
    (∃ s2, wrap_for_multiline (str " ") 4 = .ok s2) := by
  obtain ⟨h1, h2⟩ := claim_C3_amended (str "hello world") 5 (by norm_num)
  exact ⟨h1, h2 (str " ") 4 (by decide)⟩

theorem nextChunkC_spec (prevRev : Str) :
    ∀ (x accRev : Str),
    (nextChunkC prevRev accRev x).1 ++ (nextChunkC prevRev accRev x).2 =
      accRev.reverse ++ x ∧
    accRev.length ≤ (nextChunkC prevRev accRev x).1.length := by
  intro x
  induction x with
  | nil =>
    intro accRev
    simp only [nextChunkC]
    constructor
    · simp
    · simp
  | cons r rs ih =>
    intro accRev
    simp only [nextChunkC]
    by_cases h1 : r = '-' ∧ hyphLB (accRev ++ prevRev) = true ∧ hyphLA rs = true
    · rw [if_pos h1]
      constructor
      · simp only [List.append_assoc, List.singleton_append]
        rw [h1.1]
      · simp
    · rw [if_neg h1]
      by_cases h2 : pyIsSpace r = true
      · rw [if_pos h2]
        exact ⟨rfl, by simp⟩
      · rw [if_neg h2]
        by_cases h3 : wpHead (accRev ++ prevRev) = true ∧ emDashAhead (r :: rs) = true
        · rw [if_pos h3]
          exact ⟨rfl, by simp⟩
        · rw [if_neg h3]
          obtain ⟨ha, hl⟩ := ih (r :: accRev)
          constructor
          · rw [ha]
            simp
          · calc accRev.length ≤ (r :: accRev).length := by simp
              _ ≤ _ := hl

theorem nextChunk_spec (prevRev : Str) (c : Char) (cs : Str) :
    (nextChunk prevRev (c :: cs)).1 ++ (nextChunk prevRev (c :: cs)).2 = c :: cs ∧
    (nextChunk prevRev (c :: cs)).1 ≠ [] := by
  simp only [nextChunk]
  by_cases h1 : pyIsSpace c = true
  · rw [if_pos h1]
    refine ⟨?_, ?_⟩
    · show (c :: cs).takeWhile pyIsSpace ++ (c :: cs).dropWhile pyIsSpace = c :: cs
      exact List.takeWhile_append_dropWhile _ _
    · show (c :: cs).takeWhile pyIsSpace ≠ []
      rw [List.takeWhile_cons, if_pos h1]
      simp
  · rw [if_neg h1]
    by_cases h2 : wpHead prevRev = true ∧ emDashAhead (c :: cs) = true
    · rw [if_pos h2]
      refine ⟨?_, ?_⟩
      · show ((c :: cs).takeWhile fun ch => ch = '-') ++
          ((c :: cs).dropWhile fun ch => ch = '-') = c :: cs
        exact List.takeWhile_append_dropWhile _ _
      · show ((c :: cs).takeWhile fun ch => ch = '-') ≠ []
        have hrun := h2.2
        simp only [emDashAhead, Bool.and_eq_true, decide_eq_true_eq] at hrun
        intro hnil
        have h2le := hrun.1
        rw [hnil] at h2le
        simp at h2le
    · rw [if_neg h2]
      obtain ⟨ha, hl⟩ := nextChunkC_spec prevRev cs [c]
      refine ⟨?_, ?_⟩
      · show (nextChunkC prevRev [c] cs).1 ++ (nextChunkC prevRev [c] cs).2 = c :: cs
        rw [ha]
        rfl
      · show (nextChunkC prevRev [c] cs).1 ≠ []
        intro hnil
        rw [hnil] at hl
        simp at hl

theorem splitChunksGo_spec :
    ∀ (fuel : ℕ) (prevRev x : Str), x.length ≤ fuel →
    (splitChunksGo fuel prevRev x).flatten = x ∧
    ∀ c ∈ splitChunksGo fuel prevRev x, c ≠ [] := by
  intro fuel
  induction fuel with
  | zero =>
    intro prevRev x hx
    have : x = [] := List.length_eq_zero.1 (Nat.le_zero.1 hx)
    subst this
    exact ⟨rfl, by simp [splitChunksGo]⟩
  | succ n ih =>
    intro prevRev x hx
    cases x with
    | nil => exact ⟨rfl, by simp [splitChunksGo]⟩
    | cons c cs =>
      obtain ⟨hsplit, hne⟩ := nextChunk_spec prevRev c cs
      have hlen : (nextChunk prevRev (c :: cs)).2.length ≤ n := by
        have h1 : (nextChunk prevRev (c :: cs)).1.length +
            (nextChunk prevRev (c :: cs)).2.length = (c :: cs).length := by
          rw [← List.length_append, hsplit]
        have h2 : 1 ≤ (nextChunk prevRev (c :: cs)).1.length :=
          List.length_pos.2 hne
        simp only [List.length_cons] at h1 hx
        omega
      obtain ⟨ihf, ihne⟩ := ih ((nextChunk prevRev (c :: cs)).1.reverse ++ prevRev)
        (nextChunk prevRev (c :: cs)).2 hlen
      constructor
      · simp only [splitChunksGo, List.flatten_cons]
        rw [ihf, hsplit]
      · intro ck hck
        simp only [splitChunksGo] at hck
        rcases List.mem_cons.1 hck with h | h
        · subst h; exact hne
        · exact ihne ck h

theorem splitChunks_flatten (x : Str) : (splitChunks x).flatten = x :=
  (splitChunksGo_spec x.length [] x le_rfl).1

theorem splitChunks_ne_nil (x : Str) : ∀ c ∈ splitChunks x, c ≠ [] :=
  (splitChunksGo_spec x.length [] x le_rfl).2

theorem splitChunks_chars (x : Str) :
    ∀ c ∈ splitChunks x, ∀ ch ∈ c, ch ∈ x := by
  intro c hc ch hch
  rw [← splitChunks_flatten x]
  exact List.mem_flatten.2 ⟨c, hc, hch⟩

theorem mungeWS_chars (t : Str) : ∀ ch ∈ mungeWS t, spaceOnly ch := by
  intro ch hch
  simp only [mungeWS, List.mem_map] at hch
  obtain ⟨a, _, ha⟩ := hch
  intro hsp
  by_cases h : pyIsSpace a = true
  · rw [if_pos h] at ha; exact ha.symm
  · rw [if_neg h] at ha
    subst ha
    exact absurd hsp h

theorem expandTabsGo_no_tab {L : Str} (hL : ∀ ch ∈ L, ch ≠ '\t') :
    ∀ col, expandTabsGo L col = L := by
  induction L with
  | nil => intro col; rfl
  | cons c cs ih =>
    intro col
    have hc : c ≠ '\t' := hL c (List.mem_cons_self c cs)
    have hcs : ∀ ch ∈ cs, ch ≠ '\t' := fun ch h => hL ch (List.mem_cons_of_mem c h)
    simp only [expandTabsGo, if_neg hc]
    by_cases hnl : c = '\n' ∨ c = '\r'
    · rw [if_pos hnl, ih hcs]
    · rw [if_neg hnl, ih hcs]

theorem mungeWS_id {L : Str} (hL : ∀ ch ∈ L, spaceOnly ch) : mungeWS L = L := by
  unfold mungeWS
  have htab : ∀ ch ∈ L, ch ≠ '\t' := by
    intro ch hch heq
    subst heq
    exact absurd (hL '\t' hch rfl) (by decide)
  rw [expandTabsGo_no_tab htab 0]
  have hmap : ∀ (M : Str), (∀ ch ∈ M, spaceOnly ch) →
      (M.map fun c => if pyIsSpace c = true then ' ' else c) = M := by
    intro M
    induction M with
    | nil => intro _; rfl
    | cons c cs ih =>
      intro hM
      simp only [List.map_cons]
      rw [ih (fun ch h => hM ch (List.mem_cons_of_mem c h))]
      by_cases h : pyIsSpace c = true
      · rw [if_pos h, hM c (List.mem_cons_self c cs) h]
      · rw [if_neg h]
  exact hmap L hL

theorem takeFits_len (width : ℕ) :
    ∀ (l : List Str) (n : ℕ),
    (takeFits width l n).2.2 = n + ((takeFits width l n).1.map List.length).sum := by
  intro l
  induction l with
  | nil => intro n; simp [takeFits]
  | cons c cs ih =>
    intro n
    simp only [takeFits]
    by_cases h : n + c.length ≤ width
    · rw [if_pos h]
      show (takeFits width cs (n + c.length)).2.2 =
        n + ((c :: (takeFits width cs (n + c.length)).1).map List.length).sum
      rw [ih]
      simp only [List.map_cons, List.sum_cons]
      omega
    · rw [if_neg h]
      simp

theorem takeFits_le (width : ℕ) :
    ∀ (l : List Str) (n : ℕ), n ≤ width → (takeFits width l n).2.2 ≤ width := by
  intro l
  induction l with
  | nil => intro n h; exact h
  | cons c cs ih =>
    intro n h
    simp only [takeFits]
    by_cases hf : n + c.length ≤ width
    · rw [if_pos hf]
      exact ih (n + c.length) hf
    · rw [if_neg hf]
      exact h

theorem takeFits_fst_mem (width : ℕ) (l : List Str) (n : ℕ) :
    ∀ p ∈ (takeFits width l n).1, p ∈ l := by
  intro p hp
  rw [← takeFits_split width l n]
  exact List.mem_append_left _ hp

theorem takeFits_snd_mem (width : ℕ) (l : List Str) (n : ℕ) :
    ∀ p ∈ (takeFits width l n).2.1, p ∈ l := by
  intro p hp
  rw [← takeFits_split width l n]
  exact List.mem_append_right _ hp

theorem takeFits_nil_of_fst_nil (width : ℕ) (l : List Str) (n : ℕ)
    (h : (takeFits width l n).1 = []) : (takeFits width l n).2.1 = l := by
  have := takeFits_split width l n
  rw [h] at this
  exact this

theorem lineBreak_good (width : ℕ) (hw : 1 ≤ width) (l : List Str)
    (hg : GoodChunks l) :
    (∀ p ∈ (lineBreak width l).1, ∀ ch ∈ p, spaceOnly ch) ∧
    (((lineBreak width l).1.map List.length).sum ≤ width) ∧
    GoodChunks (lineBreak width l).2 ∧
    (∀ p, (lineBreak width l).1.head? = some p → p ≠ []) := by
  have hsum : (((takeFits width l 0).1.map List.length).sum) ≤ width := by
    have h1 := takeFits_len width l 0
    have h2 := takeFits_le width l 0 (by omega)
    omega
  have htfchars : ∀ p ∈ (takeFits width l 0).1, ∀ ch ∈ p, spaceOnly ch :=
    fun p hp => (hg p (takeFits_fst_mem width l 0 p hp)).2
  have htfne : ∀ p ∈ (takeFits width l 0).1, p ≠ [] :=
    fun p hp => (hg p (takeFits_fst_mem width l 0 p hp)).1
  cases hr : (takeFits width l 0).2.1 with
  | nil =>
    have hred : lineBreak width l = ((takeFits width l 0).1, []) := by
      simp only [lineBreak]
      rw [hr]
    simp only [hred]
    refine ⟨htfchars, hsum, by intro p hp; simp at hp, ?_⟩
    intro p hp
    exact htfne p (List.mem_of_mem_head? hp)
  | cons d ds =>
    have hd_mem : d ∈ l := takeFits_snd_mem width l 0 d (by rw [hr]; simp)
    have hds_mem : ∀ p ∈ ds, p ∈ l := fun p hp =>
      takeFits_snd_mem width l 0 p (by rw [hr]; simp [hp])
    by_cases hlong : width < d.length
    · have hred : lineBreak width l =
          ((takeFits width l 0).1 ++ [(handleLW width (takeFits width l 0).2.2 d).1],
           (handleLW width (takeFits width l 0).2.2 d).2 :: ds) := by
        simp only [lineBreak]
        rw [hr]
        show (if width < d.length then _ else _) = _
        rw [if_pos hlong]
      simp only [hred]
      have hcl : (takeFits width l 0).2.2 ≤ width := takeFits_le width l 0 (by omega)
      refine ⟨?_, ?_, ?_, ?_⟩
      · intro p hp ch hch
        show spaceOnly ch
        rcases List.mem_append.1 hp with h | h
        · exact htfchars p h ch hch
        · simp at h
          subst h
          exact (hg d hd_mem).2 ch (handleLW_fst_subset width _ d ch hch)
      · rw [List.map_append, List.sum_append]
        simp only [List.map_cons, List.map_nil, List.sum_cons, List.sum_nil]
        have hlen := takeFits_len width l 0
        rcases handleLW_fst_len width (takeFits width l 0).2.2 hw d with h | h
        · omega
        · omega
      · intro p hp
        rcases List.mem_cons.1 hp with h | h
        · subst h
          exact ⟨handleLW_drop_ne width _ hw d hlong,
            fun ch hch => (hg d hd_mem).2 ch (handleLW_snd_subset width _ d ch hch)⟩
        · exact hg p (hds_mem p h)
      · intro p hp
        cases htf1 : (takeFits width l 0).1 with
        | nil =>
          rw [htf1] at hp
          simp at hp
          subst hp
          have hcl0 : (takeFits width l 0).2.2 = 0 := by
            have := takeFits_len width l 0
            rw [htf1] at this
            simpa using this
          rw [hcl0]
          exact handleLW_fst_ne width hw d (hg d hd_mem).1
        | cons q qs =>
          rw [htf1] at hp
          simp at hp
          have hq : q ∈ (takeFits width l 0).1 := by rw [htf1]; simp
          subst hp
          exact htfne q hq
    · have hred : lineBreak width l = ((takeFits width l 0).1, d :: ds) := by
        simp only [lineBreak]
        rw [hr]
        show (if width < d.length then _ else _) = _
        rw [if_neg hlong]
      simp only [hred]
      refine ⟨htfchars, hsum, ?_, ?_⟩
      · intro p hp
        rcases List.mem_cons.1 hp with h | h
        · rw [h]; exact hg d hd_mem
        · exact hg p (hds_mem p h)
      · intro p hp
        exact htfne p (List.mem_of_mem_head? hp)

theorem head_of_dropLast {α : Type} (l : List α) (h : l.dropLast ≠ []) :
    l.dropLast.head? = l.head? := by
  cases l with
  | nil => rfl
  | cons a t =>
    cases t with
    | nil => simp at h
    | cons b u => rfl

theorem flatten_ne_nil_of_head {l : List Str} (hne : l ≠ [])
    (hh : ∀ p, l.head? = some p → p ≠ []) : l.flatten ≠ [] := by
  cases l with
  | nil => exact absurd rfl hne
  | cons p t =>
    have hp : p ≠ [] := hh p rfl
    simp only [List.flatten_cons]
    intro hcontra
    rcases List.append_eq_nil.1 hcontra with ⟨h1, _⟩
    exact hp h1

theorem sum_map_dropLast_le (l : List Str) :
    (l.dropLast.map List.length).sum ≤ (l.map List.length).sum := by
  rcases eq_or_ne l [] with h | hne
  · subst h; simp
  · have hdec := List.dropLast_append_getLast hne
    conv_rhs => rw [← hdec]
    rw [List.map_append, List.sum_append]
    exact Nat.le_add_right _ _

theorem wrapStep_good (width : ℕ) (hw : 1 ≤ width) (lines : List Str) (c : Str)
    (cs : List Str) (hg : GoodChunks (c :: cs))
    (hlines : ∀ L ∈ lines, GoodLine width L) :
    GoodChunks (wrapStep width lines c cs).1 ∧
    ∀ L ∈ (wrapStep width lines c cs).2, GoodLine width L := by
  have hgch : GoodChunks (if lines ≠ [] ∧ isBlank c = true then cs else c :: cs) := by
    by_cases h : lines ≠ [] ∧ isBlank c = true
    · rw [if_pos h]
      exact fun p hp => hg p (List.mem_cons_of_mem c hp)
    · rw [if_neg h]; exact hg
  obtain ⟨hchars, hsum, hrest, hhead⟩ := lineBreak_good width hw _ hgch
  constructor
  · exact hrest
  · simp only [wrapStep]
    set lb1 := (lineBreak width (if lines ≠ [] ∧ isBlank c = true
      then cs else c :: cs)).1 with hlb1
    set c3 := (match lb1.getLast? with
      | some lastc => if isBlank lastc then lb1.dropLast else lb1
      | none => lb1) with hc3
    have hc3cases : c3 = lb1 ∨ c3 = lb1.dropLast := by
      rw [hc3]
      cases hgl : lb1.getLast? with
      | none => left; rfl
      | some lastc =>
        by_cases hb : isBlank lastc = true
        · right
          show (if isBlank lastc = true then lb1.dropLast else lb1) = lb1.dropLast
          rw [if_pos hb]
        · left
          show (if isBlank lastc = true then lb1.dropLast else lb1) = lb1
          rw [if_neg hb]
    have hc3sub : c3 ⊆ lb1 := by
      rcases hc3cases with h | h
      · rw [h]; exact List.Subset.refl lb1
      · rw [h]; exact (List.dropLast_sublist lb1).subset
    have hc3sum : (c3.map List.length).sum ≤ width := by
      rcases hc3cases with h | h
      · rw [h]; exact hsum
      · rw [h]; exact le_trans (sum_map_dropLast_le lb1) hsum
    intro L hL
    by_cases hne : c3 = []
    · rw [if_pos hne] at hL
      exact hlines L hL
    · rw [if_neg hne] at hL
      rcases List.mem_cons.1 hL with h | h
      · have hLflat : L = c3.flatten := h
        have hhead3 : ∀ p, c3.head? = some p → p ≠ [] := by
          rcases hc3cases with hcc | hcc
          · rw [hcc]; exact hhead
          · intro p hp
            rw [hcc] at hp
            rw [head_of_dropLast lb1 (by rw [← hcc]; exact hne)] at hp
            exact hhead p hp
        refine ⟨?_, ?_, ?_⟩
        · rw [hLflat]
          exact flatten_ne_nil_of_head hne hhead3
        · rw [hLflat, List.length_flatten]
          exact hc3sum
        · intro ch hch
          rw [hLflat] at hch
          obtain ⟨p, hp, hchp⟩ := List.mem_flatten.1 hch
          exact hchars p (hc3sub hp) ch hchp
      · exact hlines L h

theorem wrapChunksGo_good (width : ℕ) (hw : 1 ≤ width) :
    ∀ (fuel : ℕ) (chunks : List Str) (lines : List Str) (ls : List Str),
    GoodChunks chunks → (∀ L ∈ lines, GoodLine width L) →
    wrapChunksGo width fuel chunks lines = .ok ls →
    ∀ L ∈ ls, GoodLine width L := by
  intro fuel
  induction fuel with
  | zero => intro chunks lines ls _ _ h; exact absurd h (by simp [wrapChunksGo])
  | succ n ih =>
    intro chunks lines ls hg hlines hok
    cases chunks with
    | nil =>
      have : ls = lines.reverse := by
        simp only [wrapChunksGo] at hok
        injection hok with h
        exact h.symm
      subst this
      intro L hL
      exact hlines L (List.mem_reverse.1 hL)
    | cons c cs =>
      obtain ⟨hg2, hlines2⟩ := wrapStep_good width hw lines c cs hg hlines
      exact ih _ _ ls hg2 hlines2 hok

theorem textwrapWrap_good (t : Str) (width : ℕ) (ls : List Str)
    (hok : textwrapWrap t width = .ok ls) :
    1 ≤ width ∧ ∀ L ∈ ls, GoodLine width L := by
  by_cases hwz : width = 0
  · subst hwz
    exact absurd hok (by simp [textwrapWrap])
  · have hw : 1 ≤ width := by omega
    refine ⟨hw, ?_⟩
    unfold textwrapWrap at hok
    rw [if_neg hwz] at hok
    refine wrapChunksGo_good width hw _ _ _ ls ?_ (by simp) hok
    intro ck hck
    exact ⟨splitChunks_ne_nil _ ck hck,
      fun ch hch => mungeWS_chars t ch (splitChunks_chars _ ck hck ch hch)⟩

theorem takeFits_all (width : ℕ) :
    ∀ (l : List Str) (n : ℕ), n + (l.map List.length).sum ≤ width →
    takeFits width l n = (l, [], n + (l.map List.length).sum) := by
  intro l
  induction l with
  | nil => intro n h; simp [takeFits]
  | cons c cs ih =>
    intro n h
    simp only [List.map_cons, List.sum_cons] at h ⊢
    simp only [takeFits]
    rw [if_pos (show n + c.length ≤ width by omega)]
    rw [ih (n + c.length) (by omega)]
    have harith : n + c.length + (cs.map List.length).sum =
        n + (c.length + (cs.map List.length).sum) := by omega
    simp [harith]

theorem flatten_getLast :
    ∀ (l : List Str), (hl : l ≠ []) → (∀ c ∈ l, c ≠ []) →
    ∀ (h2 : l.flatten ≠ []), l.flatten.getLast h2 ∈ l.getLast hl := by
  intro l
  induction l with
  | nil => intro hl; exact absurd rfl hl
  | cons ck rest ih =>
    intro _ hcne h2
    cases rest with
    | nil =>
      have hck : ck ≠ [] := hcne ck (by simp)
      have hfl : (([ck] : List Str)).flatten = ck := by simp
      have hgl : ([ck] : List Str).getLast (by simp) = ck := rfl
      rw [hgl]
      have := List.getLast_mem (l := ck) hck
      convert this using 2
    | cons ck2 rest2 =>
      have hrne : (ck2 :: rest2 : List Str) ≠ [] := by simp
      have hfne : (ck2 :: rest2 : List Str).flatten ≠ [] := by
        apply flatten_ne_nil_of_head hrne
        intro p hp
        simp at hp
        rw [← hp]
        exact hcne ck2 (by simp)
      have hflcons : (ck :: ck2 :: rest2 : List Str).flatten =
          ck ++ (ck2 :: rest2 : List Str).flatten := by simp
      have hglcons : (ck :: ck2 :: rest2 : List Str).getLast (by simp) =
          (ck2 :: rest2 : List Str).getLast hrne := List.getLast_cons hrne
      have hmem := ih hrne (fun c hc => hcne c (List.mem_cons_of_mem ck hc)) hfne
      rw [hglcons]
      have happ : (ck :: ck2 :: rest2 : List Str).flatten.getLast h2 =
          (ck2 :: rest2 : List Str).flatten.getLast hfne := by
        have h3 : ck ++ (ck2 :: rest2 : List Str).flatten ≠ [] := by
          rw [← hflcons]; exact h2
        calc (ck :: ck2 :: rest2 : List Str).flatten.getLast h2
            = (ck ++ (ck2 :: rest2 : List Str).flatten).getLast h3 := by
              congr 1
          _ = (ck2 :: rest2 : List Str).flatten.getLast hfne :=
              List.getLast_append' _ _ hfne
      rw [happ]
      exact hmem

theorem pyFill_fix (width : ℕ) (hw : 1 ≤ width) (L : Str) (hne : L ≠ [])
    (hchars : ∀ ch ∈ L, spaceOnly ch) (hlen : L.length ≤ width)
    (hlast : pyIsSpace (L.getLast hne) = false) :
    pyFill L width = .ok L := by
  have hmunge : mungeWS L = L := mungeWS_id hchars
  have hflat : (splitChunks L).flatten = L := splitChunks_flatten L
  have hcne : ∀ c ∈ splitChunks L, c ≠ [] := splitChunks_ne_nil L
  have hckne : splitChunks L ≠ [] := by
    intro h
    rw [h] at hflat
    exact hne hflat.symm
  have hsum : ((splitChunks L).map List.length).sum = L.length := by
    rw [← List.length_flatten, hflat]
  have htf : takeFits width (splitChunks L) 0 =
      (splitChunks L, [], 0 + ((splitChunks L).map List.length).sum) :=
    takeFits_all width (splitChunks L) 0 (by omega)
  have hlb : lineBreak width (splitChunks L) = (splitChunks L, []) := by
    simp only [lineBreak, htf]
  have hfne : (splitChunks L).flatten ≠ [] := by rw [hflat]; exact hne
  have hlastmem : (splitChunks L).flatten.getLast hfne ∈ (splitChunks L).getLast hckne :=
    flatten_getLast (splitChunks L) hckne hcne hfne
  have hgl_eq : (splitChunks L).flatten.getLast hfne = L.getLast hne := by
    have h1 := List.getLast?_eq_getLast (splitChunks L).flatten hfne
    have h2 := List.getLast?_eq_getLast L hne
    have h3 : (splitChunks L).flatten.getLast? = L.getLast? := by rw [hflat]
    rw [h1, h2] at h3
    injection h3
  have hblast : isBlank ((splitChunks L).getLast hckne) = false := by
    rcases Bool.eq_false_or_eq_true (isBlank ((splitChunks L).getLast hckne)) with h | h
    · exfalso
      have hall : ((splitChunks L).getLast hckne).all pyIsSpace = true := h
      have := List.all_eq_true.1 hall _ hlastmem
      rw [hgl_eq, hlast] at this
      exact Bool.false_ne_true this
    · exact h
  obtain ⟨c0, cs0, hcons⟩ : ∃ c0 cs0, splitChunks L = c0 :: cs0 := by
    cases hx : splitChunks L with
    | nil => exact absurd hx hckne
    | cons a b => exact ⟨a, b, rfl⟩
  have hglsome : (splitChunks L).getLast? = some ((splitChunks L).getLast hckne) :=
    List.getLast?_eq_getLast _ hckne
  have hstep : wrapStep width [] c0 cs0 = ([], [L]) := by
    simp only [wrapStep]
    rw [if_neg (by simp)]
    rw [← hcons, hlb]
    show ([], if (match (splitChunks L).getLast? with
        | some lastc => if isBlank lastc then (splitChunks L).dropLast else splitChunks L
        | none => splitChunks L) = [] then ([] : List Str)
      else (match (splitChunks L).getLast? with
        | some lastc => if isBlank lastc then (splitChunks L).dropLast else splitChunks L
        | none => splitChunks L).flatten :: []) = ([], [L])
    rw [hglsome]
    show ([], if (if isBlank ((splitChunks L).getLast hckne) = true
        then (splitChunks L).dropLast else splitChunks L) = [] then ([] : List Str)
      else (if isBlank ((splitChunks L).getLast hckne) = true
        then (splitChunks L).dropLast else splitChunks L).flatten :: []) = ([], [L])
    rw [hblast]
    show ([], if splitChunks L = [] then ([] : List Str)
      else (splitChunks L).flatten :: []) = ([], [L])
    rw [if_neg hckne, hflat]
  have hfuel : ∃ f, chunkFuel (splitChunks L) = f + 2 := by
    unfold chunkFuel
    rw [hcons]
    simp only [List.map_cons, List.sum_cons, List.length_cons]
    have hc0 : c0 ≠ [] := hcne c0 (by rw [hcons]; simp)
    have : 1 ≤ c0.length := List.length_pos.2 hc0
    exact ⟨c0.length + (cs0.map List.length).sum + cs0.length, by omega⟩
  obtain ⟨f, hf⟩ := hfuel
  have hwrap : textwrapWrap L width = .ok [L] := by
    simp only [textwrapWrap]
    rw [if_neg (show ¬width = 0 by omega)]
    rw [hmunge, hf, hcons]
    show wrapChunksGo width (f + 1) (wrapStep width [] c0 cs0).1
      (wrapStep width [] c0 cs0).2 = .ok [L]
    rw [hstep]
    rfl
  rw [pyFill, hwrap]
  rfl

theorem replaceEsc_cons_nopair (c : Char) (rest : Str)
    (h : ¬(c = '\\' ∧ rest.head? = some 'n')) :
    replaceEsc (c :: rest) = c :: replaceEsc rest := by
  rw [replaceEsc.eq_def]
  split
  · rename_i heq
    injection heq with h1 h2
    exact absurd ⟨h1, by rw [h2]; rfl⟩ h
  · rename_i c2 r2 heq
    injection heq with h1 h2
    rw [h1, h2]
  · rename_i heq
    exact absurd heq (by simp)

theorem hasEsc_cons (c : Char) (rest : Str) (h : hasEsc (c :: rest) = false) :
    hasEsc rest = false ∧ ¬(c = '\\' ∧ rest.head? = some 'n') := by
  cases rest with
  | nil =>
    refine ⟨rfl, ?_⟩
    rintro ⟨_, hh⟩
    exact absurd hh (by simp)
  | cons r rs =>
    by_cases hcr : c = '\\' ∧ r = 'n'
    · obtain ⟨hc1, hc2⟩ := hcr
      subst hc1; subst hc2
      exact absurd h (by simp [hasEsc])
    · have hred : hasEsc (c :: r :: rs) = hasEsc (r :: rs) := by
        rw [hasEsc.eq_def]
        split
        · rename_i heq
          injection heq with h1 h2
          injection h2 with h2a _
          exact absurd ⟨h1, h2a⟩ hcr
        · rename_i c2 r2 heq
          injection heq with _ h2
          rw [h2]
        · rename_i heq
          exact absurd heq (by simp)
      rw [hred] at h
      refine ⟨h, ?_⟩
      rintro ⟨h1, h2⟩
      have hr : r = 'n' := by injection h2
      exact hcr ⟨h1, hr⟩

theorem replaceEsc_eq_self {s : Str} (h : hasEsc s = false) : replaceEsc s = s := by
  induction s with
  | nil => rfl
  | cons c rest ih =>
    obtain ⟨h1, h2⟩ := hasEsc_cons c rest h
    rw [replaceEsc_cons_nopair c rest h2, ih h1]

theorem joinNL_splitNL (s : Str) : joinNL (splitNL s) = s := by
  induction s with
  | nil => rfl
  | cons c cs ih =>
    by_cases hc : c = '\n'
    · subst hc
      rw [splitNL_cons_nl]
      obtain ⟨h0, t0, ht⟩ : ∃ h0 t0, splitNL cs = h0 :: t0 := by
        cases hsp : splitNL cs with
        | nil => exact absurd hsp (splitNL_ne_nil cs)
        | cons a b => exact ⟨a, b, rfl⟩
      rw [ht] at ih
      rw [ht, joinNL_cons_cons, List.nil_append, ih]
    · rw [splitNL_cons_ne hc]
      cases hsp : splitNL cs with
      | nil => exact absurd hsp (splitNL_ne_nil cs)
      | cons h0 t0 =>
        rw [hsp] at ih
        cases t0 with
        | nil =>
          show c :: h0 = c :: cs
          exact congrArg (List.cons c) ih
        | cons y t1 =>
          show joinNL ((c :: h0) :: y :: t1) = c :: cs
          rw [joinNL_cons_cons] at ih
          rw [joinNL_cons_cons, List.cons_append, ih]

theorem splitNL_joinNL : ∀ (bs : List Str), bs ≠ [] →
    splitNL (joinNL bs) = (bs.map splitNL).flatten := by
  intro bs
  induction bs with
  | nil => intro h; exact absurd rfl h
  | cons b rest ih =>
    intro _
    cases rest with
    | nil => simp [joinNL]
    | cons b2 rest2 =>
      rw [joinNL_cons_cons, splitNL_append_nl, ih (by simp)]
      simp

theorem mapM_loop_id {α : Type} (f : α → Except String α) :
    ∀ (l : List α) (acc : List α), (∀ a ∈ l, f a = .ok a) →
    List.mapM.loop f l acc = .ok (acc.reverse ++ l) := by
  intro l
  induction l with
  | nil => intro acc _; simp [List.mapM.loop, pure, Except.pure]
  | cons a t ih =>
    intro acc h
    have ha : f a = .ok a := h a (List.mem_cons_self a t)
    simp only [List.mapM.loop, ha, Except.instMonad, Except.bind, Except.pure]
    rw [ih (a :: acc) (fun x hx => h x (List.mem_cons_of_mem a hx))]
    simp

theorem mapM_loop_mem {α β : Type} (f : α → Except String β) :
    ∀ (l : List α) (acc bs : List β), List.mapM.loop f l acc = .ok bs →
    ∀ b ∈ bs, b ∈ acc ∨ ∃ a ∈ l, f a = .ok b := by
  intro l
  induction l with
  | nil =>
    intro acc bs hok b hb
    simp only [List.mapM.loop, pure, Except.pure, Except.ok.injEq] at hok
    rw [← hok] at hb
    exact Or.inl (List.mem_reverse.mp hb)
  | cons a t ih =>
    intro acc bs hok b hb
    cases hfa : f a with
    | error e =>
      simp only [List.mapM.loop, hfa, Except.instMonad, Except.bind] at hok
      cases hok
    | ok v =>
      simp only [List.mapM.loop, hfa, Except.instMonad, Except.bind] at hok
      rcases ih (v :: acc) bs hok b hb with hmem | ⟨a2, ha2, hfa2⟩
      · rcases List.mem_cons.mp hmem with rfl | h2
        · exact Or.inr ⟨a, List.mem_cons_self a t, hfa⟩
        · exact Or.inl h2
      · exact Or.inr ⟨a2, List.mem_cons_of_mem a ha2, hfa2⟩

theorem wrapFM_blocks (t : Str) (W : ℕ) (bs : List Str)
    (hbs : wrapBlocks t W = .ok bs) :
    ∀ b ∈ bs, b = [] ∨ ∃ p, pyFill p (W / 5) = .ok b := by
  intro b hb
  unfold wrapBlocks at hbs
  simp only [List.mapM] at hbs
  rcases mapM_loop_mem _ _ _ _ hbs b hb with hmem | ⟨p, _, hfp⟩
  · exact absurd hmem (List.not_mem_nil b)
  · by_cases hbl : isBlank p
    · rw [if_pos hbl] at hfp
      left
      have : Except.ok ([] : Str) = Except.ok b := hfp
      injection this with h
      exact h.symm
    · rw [if_neg hbl] at hfp
      exact Or.inr ⟨p, hfp⟩

theorem wrapFM_lines (t : Str) (W : ℕ) (s : Str)
    (hok : wrap_for_multiline t W = .ok s) :
    ∀ L ∈ splitNL s, L = [] ∨ (GoodLine (W / 5) L ∧ 1 ≤ W / 5) := by
  obtain ⟨bs, hbs, hjoin⟩ : ∃ bs, wrapBlocks t W = .ok bs ∧ joinNL bs = s := by
    unfold wrap_for_multiline at hok
    cases hwb : wrapBlocks t W with
    | error e => rw [hwb] at hok; exact absurd hok (by simp [Except.map])
    | ok bs =>
      rw [hwb] at hok
      refine ⟨bs, rfl, ?_⟩
      have : Except.ok (joinNL bs) = Except.ok s := hok
      injection this
  have hblock := wrapFM_blocks t W bs hbs
  intro L hL
  rcases eq_or_ne bs [] with rfl | hbsne
  · rw [← hjoin] at hL
    simp only [joinNL] at hL
    simp only [splitNL, List.mem_singleton] at hL
    exact Or.inl hL
  · rw [← hjoin, splitNL_joinNL bs hbsne, List.mem_flatten] at hL
    obtain ⟨sl, hsl, hLsl⟩ := hL
    rw [List.mem_map] at hsl
    obtain ⟨b, hbbs, rfl⟩ := hsl
    rcases hblock b hbbs with rfl | ⟨p, hfp⟩
    · simp only [splitNL, List.mem_singleton] at hLsl
      exact Or.inl hLsl
    · unfold pyFill at hfp
      cases hww : textwrapWrap p (W / 5) with
      | error e => rw [hww] at hfp; exact absurd hfp (by simp [Except.map])
      | ok ls =>
        rw [hww] at hfp
        have hb : joinNL ls = b := by
          have : Except.ok (joinNL ls) = Except.ok b := hfp
          injection this
        obtain ⟨hw, hgood⟩ := textwrapWrap_good p (W / 5) ls hww
        rw [← hb] at hLsl
        rcases eq_or_ne ls [] with rfl | hlsne
        · simp only [joinNL] at hLsl
          simp only [splitNL, List.mem_singleton] at hLsl
          exact Or.inl hLsl
        · rw [splitNL_joinNL ls hlsne, List.mem_flatten] at hLsl
          obtain ⟨sl2, hsl2, hLsl2⟩ := hLsl
          rw [List.mem_map] at hsl2
          obtain ⟨L0, hL0, rfl⟩ := hsl2
          have hgL0 := hgood L0 hL0
          have hnn : '\n' ∉ L0 := by
            intro hmem
            have hsp := hgL0.2.2 '\n' hmem (by decide)
            exact absurd hsp (by decide)
          rw [splitNL_no_nl hnn, List.mem_singleton] at hLsl2
          rw [hLsl2]
          exact Or.inr ⟨hgL0, hw⟩

/-- Claim C8, counterexample: `wrap_for_multiline` is not idempotent.
For the caption `ab␣␣cdefg` at `max_width = 20` (so 4 characters per
line), the first wrap yields `ab␣␣\ncdef\ng` — every line fits in 4
columns — but wrapping that output again drops the trailing spaces of
the first line, giving the different text `ab\ncdef\ng`:
`wrap(wrap(t)) ≠ wrap(t)`. -/
theorem claim_C8_counterexample :
    wrap_for_multiline (str "ab  cdefg") 20 = .ok (str "ab  \ncdef\ng") ∧
    wrap_for_multiline (str "ab  \ncdef\ng") 20 = .ok (str "ab\ncdef\ng") ∧
    str "ab\ncdef\ng" ≠ str "ab  \ncdef\ng" := by
  refine ⟨by decide, by decide, by decide⟩

/-- Claim C8, amended: `wrap_for_multiline` is idempotent on every
output that contains no literal backslash-`n` escape and none of whose
lines ends in whitespace.  If `wrap_for_multiline t W` succeeds with
output `s`, `s` has no `\\n` escape pair, and no line of `s` ends in a
whitespace character, then wrapping `s` again returns `s` unchanged. -/
theorem claim_C8_amended (t s : Str) (W : ℕ)
    (hok : wrap_for_multiline t W = .ok s)
    (hesc : hasEsc s = false)
    (hlast : ∀ L ∈ splitNL s, ∀ c, L.getLast? = some c → pyIsSpace c = false) :
    wrap_for_multiline s W = .ok s := by
  have hlines := wrapFM_lines t W s hok
  have hself : ∀ L ∈ splitNL s,
      (if isBlank L then (pure [] : Except String Str) else pyFill L (W / 5)) =
        Except.ok L := by
    intro L hL
    rcases hlines L hL with rfl | ⟨⟨hne, hlen, hchars⟩, hw⟩
    · simp [isBlank, pure, Except.pure]
    · have hlastc : pyIsSpace (L.getLast hne) = false := by
        apply hlast L hL
        exact List.getLast?_eq_getLast L hne
      have hblank : isBlank L = false := by
        cases hb : isBlank L
        · rfl
        · exfalso
          have hall : L.all pyIsSpace = true := hb
          have := List.all_eq_true.mp hall (L.getLast hne) (List.getLast_mem hne)
          rw [hlastc] at this
          cases this
      rw [if_neg (by simp [hblank])]
      exact pyFill_fix (W / 5) hw L hne hchars hlen hlastc
  have hmap : List.mapM.loop
      (fun p => if isBlank p then (pure [] : Except String Str) else pyFill p (W / 5))
      (splitNL s) [] = .ok (splitNL s) := by
    have h := mapM_loop_id
      (fun p => if isBlank p then (pure [] : Except String Str) else pyFill p (W / 5))
      (splitNL s) [] hself
    simpa using h
  simp only [wrap_for_multiline, wrapBlocks, replaceEsc_eq_self hesc]
  simp only [List.mapM]
  rw [hmap]
  simp only [Except.map]
  rw [joinNL_splitNL]

/-- Witness for the amended C8: wrapping `hello world` at `max_width
40` gives `hello\nworld`, and wrapping that output again reproduces it
exactly. -/
theorem claim_C8_amended_witness :
    wrap_for_multiline (str "hello\nworld") 40 = .ok (str "hello\nworld") := by
  apply claim_C8_amended (str "hello world") (str "hello\nworld") 40
  · decide
  · decide
  · intro L hL c hc
    have hsp : splitNL (str "hello\nworld") = [str "hello", str "world"] := by decide
    rw [hsp] at hL
    rcases List.mem_cons.mp hL with rfl | hL2
    · have h2 : (str "hello").getLast? = some 'o' := by decide
      rw [h2] at hc
      injection hc with h3
      rw [← h3]
      decide
    · rcases List.mem_cons.mp hL2 with rfl | hL3
      · have h2 : (str "world").getLast? = some 'd' := by decide
        rw [h2] at hc
        injection hc with h3
        rw [← h3]
        decide
      · exact absurd hL3 (List.not_mem_nil L)
